import Mathlib

/-!
Shallow embedding of the maze-game core from `src/main.py`:
maze generation (`Maze.generate_maze`), goal selection
(`Maze.find_valid_portal_position`), the collision query (`Camera.can_move`),
axis-decoupled movement (`Camera.move`, `Camera.rotate`) and the portal
proximity test (`Camera.check_portal_collision`).

Conventions:
* the grid is a list of rows of cell values, `1` = WALL, `0` = PATH, exactly
  as the numpy integer matrix in the source;
* real-valued player coordinates are embedded as rationals `ℚ` (all the
  arithmetic the code performs on them is exact at the granularity of the
  properties proved here);
* Python `int()` truncation toward zero is `pyInt`;
* a numpy element read `grid[i][j]` is `npGet` — indices in `[-n, n)` are
  accepted (negative ones wrap), anything else raises `IndexError`, modelled
  as `none`;
* `random.choice` is modelled by an injected stream `rho : ℕ → ℕ` of raw
  draws; the choice at carve step `t` is `neighbors[rho t % len neighbors]`,
  which realizes every possible sequence of choices.
-/

namespace MazeGame

/-- A maze grid: list of rows, each a list of cell values (`1` wall, `0` path),
mirroring the numpy matrix built by `Maze.generate_maze`. -/
abbrev Grid := List (List ℕ)

/-- Read `grid[i][j]` at in-range natural indices (out-of-range reads yield the
wall value `1`; generation only ever reads in bounds). -/
def cell (g : Grid) (i j : ℕ) : ℕ := (g.getD i []).getD j 1

/-- Write `grid[i][j] = v` (out-of-range writes are a no-op; generation only
ever writes in bounds). -/
def setCell (g : Grid) (i j v : ℕ) : Grid := g.set i ((g.getD i []).set j v)

/-- `np.ones((n, n))`. -/
def initGrid (n : ℕ) : Grid := List.replicate n (List.replicate n 1)

/-- Number of PATH cells of the grid. -/
def pathCount (g : Grid) : ℕ := (g.map (fun r => r.count 0)).sum

/-- Number of WALL cells of the grid. -/
def wallCount (g : Grid) : ℕ := (g.map (fun r => r.count 1)).sum

/-- The grid is an `n × n` matrix. -/
def wf (n : ℕ) (g : Grid) : Prop := g.length = n ∧ ∀ r ∈ g, r.length = n

/-- State of the carving loop of `Maze.generate_maze`: the matrix, the explicit
stack, and the number of carve steps performed so far (which doubles as the
clock of the random source). -/
structure GenState where
  grid : Grid
  stack : List (ℕ × ℕ)
  t : ℕ

/-- The four candidate cells two steps away, in source order
`[(0,2), (0,-2), (2,0), (-2,0)]` applied to `(x, y)`.  Natural subtraction
truncates at `0`, but every candidate whose Python value would be negative is
rejected by the `0 < nx` / `0 < ny` filter either way, so the filtered list
coincides with the source's. -/
def neighborCands (x y : ℕ) : List (ℕ × ℕ) :=
  [(x, y + 2), (x, y - 2), (x + 2, y), (x - 2, y)]

/-- The filtered neighbour list: strictly inside the outer ring and still WALL. -/
def neighbors (g : Grid) (n x y : ℕ) : List (ℕ × ℕ) :=
  (neighborCands x y).filter
    (fun p => decide (0 < p.1 ∧ p.1 < n - 1 ∧ 0 < p.2 ∧ p.2 < n - 1 ∧ cell g p.1 p.2 = 1))

/-- One-shot description of the carving of a chosen neighbour `c` from `(x, y)`:
clear the midpoint wall, then mark `c` itself. -/
def carve (g : Grid) (x y : ℕ) (c : ℕ × ℕ) : Grid :=
  setCell (setCell g ((x + c.1) / 2) ((y + c.2) / 2) 0) c.1 c.2 0

/-- The `while stack:` loop of `Maze.generate_maze`, fuelled.  The head of the
list is the top of the stack (`stack[-1]`); `append` is `cons`, `pop` is
dropping the head. -/
def genLoop (rho : ℕ → ℕ) (n : ℕ) : ℕ → GenState → GenState
  | 0, s => s
  | fuel + 1, s =>
    match s.stack with
    | [] => s
    | (x, y) :: rest =>
      let ns := neighbors s.grid n x y
      if ns.isEmpty then
        genLoop rho n fuel ⟨s.grid, rest, s.t⟩
      else
        let c := ns.getD (rho s.t % ns.length) (0, 0)
        genLoop rho n fuel ⟨carve s.grid x y c, c :: (x, y) :: rest, s.t + 1⟩

/-- Initial state: all-walls matrix, cell `(1,1)` marked PATH and pushed. -/
def genStart (n : ℕ) : GenState := ⟨setCell (initGrid n) 1 1 0, [(1, 1)], 0⟩

/-- The full generation run.  The fuel `2n² + 1` dominates the loop measure
`2·(wall count) + (stack length)`, which is proved to suffice below. -/
def genFull (rho : ℕ → ℕ) (n : ℕ) : GenState :=
  genLoop rho n (2 * n * n + 1) (genStart n)

/-- `Maze.generate_maze`. -/
def generate_maze (rho : ℕ → ℕ) (n : ℕ) : Grid := (genFull rho n).grid

/-- `Maze.generate_maze` with its only possible failure made explicit: the
numpy assignment `maze[1, 1] = 0` raises `IndexError` when `size ≤ 1`; for
`size ≥ 2` every later matrix access is kept in bounds by the neighbour
filter.  The constructor performs no size validation whatsoever: there is no
`ConfigurationError` (or any other check) in the code, and the program itself
runs with the even size `MAZE_SIZE = 14`. -/
def generate_mazeE (rho : ℕ → ℕ) (n : ℕ) : Option Grid :=
  if 2 ≤ n then some (generate_maze rho n) else none

/-- Scan order of `find_valid_portal_position`: `x` from `size−1` down to `1`,
and for each `x`, `z` from `size−1` down to `1`. -/
def scanList (n : ℕ) : List (ℕ × ℕ) :=
  ((List.range' 1 (n - 1)).reverse).flatMap
    (fun x => ((List.range' 1 (n - 1)).reverse).map (fun z => (x, z)))

/-- `Maze.find_valid_portal_position`: first PATH cell in scan order, with the
`(1, 1)` fallback. -/
def find_valid_portal_position (n : ℕ) (g : Grid) : ℕ × ℕ :=
  ((scanList n).find? (fun p => cell g p.1 p.2 == 0)).getD (1, 1)

/-- `Maze.__init__` for `size = n`: generate the grid, then pick the portal. -/
def mazeNew (rho : ℕ → ℕ) (n : ℕ) : Grid × (ℕ × ℕ) :=
  let g := generate_maze rho n
  (g, find_valid_portal_position n g)

/-- `Maze.__init__` with the error behaviour of `generate_mazeE` made explicit
(`find_valid_portal_position` itself only reads indices in `[1, n−1]`, always
in bounds, so it adds no failure of its own). -/
def mazeInitE (rho : ℕ → ℕ) (n : ℕ) : Option (Grid × (ℕ × ℕ)) :=
  (generate_mazeE rho n).map (fun g => (g, find_valid_portal_position n g))

/-- `PLAYER_RADIUS = 0.2`. -/
def PLAYER_RADIUS : ℚ := 1 / 5

/-- The camera/player pose of `Camera.__init__`. -/
structure Camera where
  x : ℚ
  y : ℚ
  z : ℚ
  angle_yaw : ℚ
  deriving DecidableEq

/-- Initial pose `(1.5, 0.5, 1.5)`, yaw `0`. -/
def Camera.init : Camera := ⟨3 / 2, 1 / 2, 3 / 2, 0⟩

/-- Python `int()` on a rational: truncation toward zero. -/
def pyInt (q : ℚ) : ℤ := if q < 0 then ⌈q⌉ else ⌊q⌋

/-- Reading `grid[i][j]` with Python integer indices on the numpy matrix:
indices in `[-n, n)` are accepted (negative ones wrap around), anything else
raises `IndexError`, modelled as `none`. -/
def npGet (g : Grid) (i j : ℤ) : Option ℕ :=
  let n : ℤ := g.length
  if -n ≤ i ∧ i < n then
    let row := g.getD (i.emod n).toNat []
    let m : ℤ := row.length
    if -m ≤ j ∧ j < m then some (row.getD (j.emod m).toNat 1) else none
  else none

/-- The four corner offsets of the collision square, in the source's loop order
`dx ∈ [-R, R]`, `dz ∈ [-R, R]`. -/
def cornerList (radius nx nz : ℚ) : List (ℚ × ℚ) :=
  [(nx - radius, nz - radius), (nx - radius, nz + radius),
   (nx + radius, nz - radius), (nx + radius, nz + radius)]

/-- The corner loop of `Camera.can_move`: return `False` at the first corner
whose cell reads `1`; propagate an `IndexError` as `none`. -/
def cornersOk (g : Grid) : List (ℚ × ℚ) → Option Bool
  | [] => some true
  | (cx, cz) :: rest =>
    match npGet g (pyInt cx) (pyInt cz) with
    | none => none
    | some v => if v = 1 then some false else cornersOk g rest

/-- `Camera.can_move`, with the collision radius as a parameter (the source
always passes `PLAYER_RADIUS`).  The center check mirrors
`0 <= maze_x < len(grid) and 0 <= maze_z < len(grid[0]) and grid[maze_x][maze_z] == 0`
with Python's short-circuit evaluation; `none` models a raised `IndexError`
from the corner reads. -/
def can_move (g : Grid) (radius nx nz : ℚ) : Option Bool :=
  let mx := pyInt nx
  let mz := pyInt nz
  if 0 ≤ mx ∧ mx < (g.length : ℤ) ∧ 0 ≤ mz ∧ mz < ((g.getD 0 []).length : ℤ) ∧
      cell g mx.toNat mz.toNat = 0 then
    cornersOk g (cornerList radius nx nz)
  else
    some false

/-- `Camera.move`: axis-decoupled, first commit `x` if free, then commit `z`
(against the already-updated `x`) if free. -/
def move (g : Grid) (radius : ℚ) (c : Camera) (dx dz : ℚ) : Option Camera := do
  let nx := c.x + dx
  let nz := c.z + dz
  let b1 ← can_move g radius nx c.z
  let c1 : Camera := if b1 then { c with x := nx } else c
  let b2 ← can_move g radius c1.x nz
  pure (if b2 then { c1 with z := nz } else c1)

/-- `Camera.rotate`. -/
def Camera.rot (c : Camera) (a : ℚ) : Camera := { c with angle_yaw := c.angle_yaw + a }

/-- A finite sequence of `move` calls. -/
def moveSeq (g : Grid) (radius : ℚ) : Camera → List (ℚ × ℚ) → Option Camera
  | c, [] => some c
  | c, d :: ds => do
    let c1 ← move g radius c d.1 d.2
    moveSeq g radius c1 ds

/-- An interleaved sequence of `move` / `rotate` calls. -/
inductive Call where
  | mv (dx dz : ℚ)
  | rot (a : ℚ)

/-- Run a sequence of `move`/`rotate` calls from a pose. -/
def runCalls (g : Grid) (radius : ℚ) : Camera → List Call → Option Camera
  | c, [] => some c
  | c, Call.mv dx dz :: rest => do
    let c1 ← move g radius c dx dz
    runCalls g radius c1 rest
  | c, Call.rot a :: rest => runCalls g radius (c.rot a) rest

/-- `Camera.check_portal_collision`: the source computes
`sqrt((x−px)² + (z−pz)²) < 0.5`; both sides being nonnegative this holds iff
`(x−px)² + (z−pz)² < 0.5²`, which is the exact form used here over `ℚ`
(the equivalence with the square-root form is proved below). -/
def check_portal_collision (c : Camera) (p : ℕ × ℕ) : Bool :=
  decide ((c.x - (p.1 : ℚ)) ^ 2 + (c.z - (p.2 : ℚ)) ^ 2 < (1 / 2 : ℚ) ^ 2)

/-- 4-adjacency of grid cells. -/
def nextTo (p q : ℕ × ℕ) : Prop :=
  (p.1 = q.1 ∧ (p.2 + 1 = q.2 ∨ q.2 + 1 = p.2)) ∨
  (p.2 = q.2 ∧ (p.1 + 1 = q.1 ∨ q.1 + 1 = p.1))

theorem nextTo_symm {p q : ℕ × ℕ} (h : nextTo p q) : nextTo q p := by
  rcases h with ⟨h1, h2⟩ | ⟨h1, h2⟩
  · exact Or.inl ⟨h1.symm, h2.symm⟩
  · exact Or.inr ⟨h1.symm, h2.symm⟩

theorem nextTo_ne {p q : ℕ × ℕ} (h : nextTo p q) : p ≠ q := by
  rintro rfl
  rcases h with ⟨_, h2 | h2⟩ | ⟨_, h2 | h2⟩ <;> omega

/-- The graph whose vertices are cells and whose edges join 4-adjacent PATH
cells of `g` (WALL cells are isolated vertices). -/
def mazeGraph (g : Grid) : SimpleGraph (ℕ × ℕ) where
  Adj p q := cell g p.1 p.2 = 0 ∧ cell g q.1 q.2 = 0 ∧ nextTo p q
  symm := by
    intro p q ⟨h1, h2, h3⟩
    exact ⟨h2, h1, nextTo_symm h3⟩
  loopless := by
    intro p ⟨_, _, h3⟩
    exact nextTo_ne h3 rfl

/-- A concrete all-zeros random stream, used to instantiate universally
quantified theorems at a specific run. -/
def rhoZero : ℕ → ℕ := fun _ => 0

/-!
## C3 — construction-time validation

`Maze.__init__` is `self.size = size; self.grid = self.generate_maze(); ...`:
it performs no validation of `size` at all, and the identifier
`ConfigurationError` does not occur anywhere in `src/main.py`.  The program
itself constructs the maze with the even size `MAZE_SIZE = 14`.
-/

/-- C3 counterexample: constructing the maze with the even size `4` (which is
also `< 5`) raises nothing — construction succeeds, refuting the claim that an
even or too-small grid size raises a `ConfigurationError`. -/
theorem c3_counterexample : (mazeInitE rhoZero 4).isSome = true := by decide

/-- C3 (amended): `Maze.__init__` performs no size validation and never raises
a `ConfigurationError`; construction succeeds for every size `n ≥ 2`, even or
odd, and the only construction-time failure is the `IndexError` from the
assignment `maze[1, 1] = 0` when `n ≤ 1`. -/
theorem c3_no_validation (rho : ℕ → ℕ) (n : ℕ) :
    (mazeInitE rho n).isSome = true ↔ 2 ≤ n := by
  unfold mazeInitE generate_mazeE
  by_cases h : 2 ≤ n <;> simp [h]

/-!
## C5 — the wall-sliding scenario

Concrete grid for the scenario of §8 of the spec: cell `(2,2)` is PATH,
cell `(2,3)` is WALL, cell `(3,2)` is PATH.
-/

/-- A 5×5 grid realizing the scenario constraints of C5. -/
def slideGrid : Grid :=
  [[1, 1, 1, 1, 1],
   [1, 1, 1, 1, 1],
   [1, 1, 0, 1, 1],
   [1, 1, 0, 1, 1],
   [1, 1, 1, 1, 1]]

/-- C5 counterexample: on a grid satisfying the scenario constraints
(`(2,2)` PATH, `(2,3)` WALL, `(3,2)` PATH), the player at `(2.4, 2.4)` moving
by `(+0.3, +0.3)` with the program's radius `0.2` ends at `z = 2.7`, not at
`z = 2.4`: the `z`-axis move is *not* blocked, because the collision square at
`z = 2.7` only extends to `2.9 < 3` and never reaches the WALL row. -/
theorem c5_counterexample :
    cell slideGrid 2 2 = 0 ∧ cell slideGrid 2 3 = 1 ∧ cell slideGrid 3 2 = 0 ∧
    (move slideGrid PLAYER_RADIUS ⟨12/5, 1/2, 12/5, 0⟩ (3/10) (3/10)).map Camera.z =
      some (27/10) ∧ (27/10 : ℚ) ≠ 12/5 := by
  have h1 : can_move slideGrid (1/5) (12/5 + 3/10) (12/5) = some true := by
    norm_num [can_move, cornersOk, cornerList, pyInt, npGet, cell]
    decide
  have h2 : can_move slideGrid (1/5) (27/10) (27/10) = some true := by
    norm_num [can_move, cornersOk, cornerList, pyInt, npGet, cell]
    decide
  refine ⟨by decide, by decide, by decide, ?_, by norm_num⟩
  simp only [move, PLAYER_RADIUS, h1, Option.some_bind, if_true]
  norm_num [h2]

/-- C5 (amended): in the scenario grid the player at `(2.4, 2.4)` moving by
`(+0.3, +0.3)` ends at `(2.7, 2.7)` — both axis moves commit, since both
collision checks only consult the PATH cell `(2,2)`.  The intended sliding
behaviour does occur one half-cell later: starting from `(2.5, 2.5)` the same
delta ends at `(2.8, 2.5)` — the `x`-move commits and the `z`-move is blocked
by the WALL cell `(2,3)`. -/
theorem c5_slide :
    move slideGrid PLAYER_RADIUS ⟨12/5, 1/2, 12/5, 0⟩ (3/10) (3/10) =
      some ⟨27/10, 1/2, 27/10, 0⟩ ∧
    move slideGrid PLAYER_RADIUS ⟨5/2, 1/2, 5/2, 0⟩ (3/10) (3/10) =
      some ⟨14/5, 1/2, 5/2, 0⟩ := by
  constructor
  · have h1 : can_move slideGrid (1/5) (12/5 + 3/10) (12/5) = some true := by
      norm_num [can_move, cornersOk, cornerList, pyInt, npGet, cell]
      decide
    have h2 : can_move slideGrid (1/5) (27/10) (27/10) = some true := by
      norm_num [can_move, cornersOk, cornerList, pyInt, npGet, cell]
      decide
    simp only [move, PLAYER_RADIUS, h1, Option.some_bind, if_true]
    norm_num [h2]
  · have h1 : can_move slideGrid (1/5) (5/2 + 3/10) (5/2) = some true := by
      norm_num [can_move, cornersOk, cornerList, pyInt, npGet, cell]
      decide
    have h2 : can_move slideGrid (1/5) (14/5) (14/5) = some false := by
      norm_num [can_move, cornersOk, cornerList, pyInt, npGet, cell]
      decide
    simp only [move, PLAYER_RADIUS, h1, Option.some_bind, if_true]
    norm_num [h2]

/-!
## C6 — determinism

The embedded core is purely functional, so determinism amounts to: the grid
and goal cell depend only on `(n, rho)`, and the pose after any sequence of
`move`/`rotate` calls depends only on the grid, the radius, the start pose and
the call sequence.
-/

/-- C6: maze generation and goal selection are a deterministic function of the
grid size and the injected random stream — two runs with pointwise-equal
streams produce identical grids and identical goal cells, and consequently
identical pose trajectories for every sequence of `move`/`rotate` calls. -/
theorem c6_determinism (n : ℕ) (r1 r2 : ℕ → ℕ) (h : ∀ t, r1 t = r2 t) :
    mazeNew r1 n = mazeNew r2 n ∧
    ∀ (radius : ℚ) (c : Camera) (cs : List Call),
      runCalls (mazeNew r1 n).1 radius c cs = runCalls (mazeNew r2 n).1 radius c cs := by
  have hr : r1 = r2 := funext h
  subst hr
  exact ⟨rfl, fun _ _ _ => rfl⟩

/-- C6 witness: the determinism theorem applied at size `5` and the all-zeros
stream. -/
theorem c6_witness :
    mazeNew rhoZero 5 = mazeNew rhoZero 5 ∧
    runCalls (mazeNew rhoZero 5).1 PLAYER_RADIUS Camera.init [Call.mv (1/10) 0] =
      runCalls (mazeNew rhoZero 5).1 PLAYER_RADIUS Camera.init [Call.mv (1/10) 0] :=
  ⟨(c6_determinism 5 rhoZero rhoZero (fun _ => rfl)).1,
   (c6_determinism 5 rhoZero rhoZero (fun _ => rfl)).2 PLAYER_RADIUS Camera.init
     [Call.mv (1/10) 0]⟩

/-!
## C9 — portal threshold
-/

/-- C9: `check_portal_collision` returns `true` iff the planar Euclidean
distance from the player to the goal cell coordinates is strictly less than
`0.5`; in particular it is `false` at distance exactly `0.5`, `true` at
`0.49`, and `false` at `0.51`. -/
theorem c9_portal_threshold :
    (∀ (c : Camera) (p : ℕ × ℕ),
      check_portal_collision c p = true ↔
        Real.sqrt (((c.x : ℝ) - (p.1 : ℕ)) ^ 2 + ((c.z : ℝ) - (p.2 : ℕ)) ^ 2) < 1 / 2) ∧
    check_portal_collision ⟨1/2, 1/2, 0, 0⟩ (0, 0) = false ∧
    check_portal_collision ⟨49/100, 1/2, 0, 0⟩ (0, 0) = true ∧
    check_portal_collision ⟨51/100, 1/2, 0, 0⟩ (0, 0) = false := by
  refine ⟨?_,
    by simp only [check_portal_collision, decide_eq_false_iff_not]; norm_num,
    by simp only [check_portal_collision, decide_eq_true_eq]; norm_num,
    by simp only [check_portal_collision, decide_eq_false_iff_not]; norm_num⟩
  intro c p
  rw [check_portal_collision, decide_eq_true_iff]
  rw [Real.sqrt_lt' (by norm_num : (0:ℝ) < 1 / 2)]
  rw [show ((1:ℝ)/2) ^ 2 = ((1/2 : ℚ) ^ 2 : ℚ) by norm_num]
  constructor
  · intro h
    have := (Rat.cast_lt (K := ℝ)).2 h
    push_cast at this ⊢
    convert this using 2 <;> push_cast <;> ring
  · intro h
    have h2 : (((c.x - (p.1 : ℚ)) ^ 2 + (c.z - (p.2 : ℚ)) ^ 2 : ℚ) : ℝ) <
        (((1/2 : ℚ) ^ 2 : ℚ) : ℝ) := by
      push_cast at h ⊢
      convert h using 2 <;> push_cast <;> ring
    exact_mod_cast h2

/-!
## List and grid access lemmas
-/

theorem getD_mem_of_lt {α : Type} (l : List α) (i : ℕ) (d : α) (h : i < l.length) :
    l.getD i d ∈ l := by
  induction l generalizing i with
  | nil => simp at h
  | cons a tl ih =>
    cases i with
    | zero => simp
    | succ i =>
      simp only [List.length_cons, Nat.succ_lt_succ_iff] at h
      simp only [List.getD_cons_succ, List.mem_cons]
      exact Or.inr (ih i h)

theorem getD_set_self {α : Type} (l : List α) (j : ℕ) (hj : j < l.length) (v d : α) :
    (l.set j v).getD j d = v := by
  induction l generalizing j with
  | nil => simp at hj
  | cons a tl ih =>
    cases j with
    | zero => simp
    | succ j =>
      simp only [List.length_cons, Nat.succ_lt_succ_iff] at hj
      simpa using ih j hj

theorem getD_set_ne {α : Type} (l : List α) {i j : ℕ} (h : i ≠ j) (v d : α) :
    (l.set i v).getD j d = l.getD j d := by
  induction l generalizing i j with
  | nil => simp
  | cons a tl ih =>
    cases i with
    | zero =>
      cases j with
      | zero => exact absurd rfl h
      | succ j => simp
    | succ i =>
      cases j with
      | zero => simp
      | succ j =>
        simp only [List.set_cons_succ, List.getD_cons_succ]
        exact ih (fun he => h (congrArg Nat.succ he))

theorem count_one_set_zero_le (l : List ℕ) (j : ℕ) :
    (l.set j 0).count 1 ≤ l.count 1 := by
  induction l generalizing j with
  | nil => simp
  | cons a tl ih =>
    cases j with
    | zero => simp [List.count_cons]
    | succ j =>
      simp only [List.set_cons_succ, List.count_cons]
      exact Nat.add_le_add_right (ih j) _

theorem count_one_set_zero_lt (l : List ℕ) (j : ℕ) (hj : j < l.length)
    (h : l.getD j 1 = 1) : (l.set j 0).count 1 < l.count 1 := by
  induction l generalizing j with
  | nil => simp at hj
  | cons a tl ih =>
    cases j with
    | zero =>
      simp only [List.getD_cons_zero] at h
      subst h
      simp [List.count_cons]
    | succ j =>
      simp only [List.length_cons, Nat.succ_lt_succ_iff] at hj
      simp only [List.getD_cons_succ] at h
      have := ih j hj h
      simp only [List.set_cons_succ, List.count_cons]
      omega

theorem length_setCell (g : Grid) (i j v : ℕ) : (setCell g i j v).length = g.length := by
  simp [setCell]

theorem wf_setCell {n : ℕ} {g : Grid} (h : wf n g) (i j v : ℕ) : wf n (setCell g i j v) := by
  unfold setCell
  by_cases hi : i < g.length
  · refine ⟨by rw [List.length_set]; exact h.1, ?_⟩
    intro r hr
    rcases List.mem_or_eq_of_mem_set hr with hin | rfl
    · exact h.2 r hin
    · rw [List.length_set]
      exact h.2 _ (getD_mem_of_lt g i [] hi)
  · rw [List.set_eq_of_length_le (Nat.le_of_not_lt hi)]
    exact h

theorem row_length {n : ℕ} {g : Grid} (h : wf n g) {i : ℕ} (hi : i < n) :
    (g.getD i []).length = n :=
  h.2 _ (getD_mem_of_lt g i [] (h.1 ▸ hi))

theorem cell_setCell_same {n : ℕ} {g : Grid} (h : wf n g) {i j : ℕ}
    (hi : i < n) (hj : j < n) (v : ℕ) : cell (setCell g i j v) i j = v := by
  unfold cell setCell
  have hi2 : i < g.length := h.1 ▸ hi
  rw [getD_set_self g i hi2]
  exact getD_set_self _ j (by rw [row_length h hi]; exact hj) v 1

theorem cell_setCell_other (g : Grid) {i j a b : ℕ} (hab : a ≠ i ∨ b ≠ j) (v : ℕ) :
    cell (setCell g i j v) a b = cell g a b := by
  unfold cell setCell
  rcases hab with ha | hb
  · rw [getD_set_ne g (fun he => ha he.symm)]
  · by_cases ha : a = i
    · subst ha
      by_cases hlen : a < g.length
      · rw [getD_set_self g a hlen]
        exact getD_set_ne _ (fun he => hb he.symm) v 1
      · rw [List.set_eq_of_length_le (Nat.le_of_not_lt hlen)]
    · rw [getD_set_ne g (fun he => ha he.symm)]

/-!
## Neighbour list facts
-/

theorem mem_neighbors_spec {g : Grid} {n x y : ℕ} {c : ℕ × ℕ}
    (h : c ∈ neighbors g n x y) :
    0 < c.1 ∧ c.1 < n - 1 ∧ 0 < c.2 ∧ c.2 < n - 1 ∧ cell g c.1 c.2 = 1 ∧
      (c = (x, y + 2) ∨ c = (x, y - 2) ∨ c = (x + 2, y) ∨ c = (x - 2, y)) := by
  unfold neighbors neighborCands at h
  rw [List.mem_filter] at h
  obtain ⟨hmem, hf⟩ := h
  rw [decide_eq_true_eq] at hf
  refine ⟨hf.1, hf.2.1, hf.2.2.1, hf.2.2.2.1, hf.2.2.2.2, ?_⟩
  simpa using hmem

theorem choice_mem {l : List (ℕ × ℕ)} (h : ¬ l.isEmpty) (k : ℕ) :
    l.getD (k % l.length) (0, 0) ∈ l := by
  have hne : l ≠ [] := by
    intro he; rw [he] at h; simp at h
  have hpos : 0 < l.length := List.length_pos.2 hne
  have hlt : k % l.length < l.length := Nat.mod_lt _ hpos
  rw [List.getD_eq_getElem l _ hlt]
  exact List.getElem_mem hlt

theorem mid_ne_choice {x y : ℕ} {c : ℕ × ℕ}
    (hcand : c = (x, y + 2) ∨ c = (x, y - 2) ∨ c = (x + 2, y) ∨ c = (x - 2, y))
    (h1 : 0 < c.1) (h2 : 0 < c.2) :
    ((x + c.1) / 2, (y + c.2) / 2) ≠ c := by
  rcases hcand with rfl | rfl | rfl | rfl <;>
    simp only [ne_eq, Prod.mk.injEq, not_and] <;> intro h3 <;> omega

/-!
## Termination of the carving loop (C10)
-/

/-- Loop measure: each iteration strictly decreases `2·(wall count) + |stack|`. -/
def loopMeasure (s : GenState) : ℕ := 2 * wallCount s.grid + s.stack.length

theorem wallCount_setCell_le (g : Grid) (i j : ℕ) :
    wallCount (setCell g i j 0) ≤ wallCount g := by
  induction g generalizing i with
  | nil => simp [setCell, wallCount]
  | cons r tl ih =>
    cases i with
    | zero =>
      simp only [setCell, List.getD_cons_zero, List.set_cons_zero, wallCount, List.map_cons,
        List.sum_cons]
      exact Nat.add_le_add_right (count_one_set_zero_le r j) _
    | succ i =>
      simp only [setCell, List.getD_cons_succ, List.set_cons_succ, wallCount, List.map_cons,
        List.sum_cons]
      exact Nat.add_le_add_left (ih i) _

theorem wallCount_setCell_lt {g : Grid} {i j : ℕ} (hi : i < g.length)
    (hj : j < (g.getD i []).length) (hc : cell g i j = 1) :
    wallCount (setCell g i j 0) < wallCount g := by
  induction g generalizing i with
  | nil => simp at hi
  | cons r tl ih =>
    cases i with
    | zero =>
      simp only [List.getD_cons_zero] at hj
      unfold cell at hc
      simp only [List.getD_cons_zero] at hc
      simp only [setCell, List.getD_cons_zero, List.set_cons_zero, wallCount, List.map_cons,
        List.sum_cons]
      exact Nat.add_lt_add_right (count_one_set_zero_lt r j hj hc) _
    | succ i =>
      simp only [List.length_cons, Nat.succ_lt_succ_iff] at hi
      simp only [List.getD_cons_succ] at hj
      unfold cell at hc
      simp only [List.getD_cons_succ] at hc
      simp only [setCell, List.getD_cons_succ, List.set_cons_succ, wallCount, List.map_cons,
        List.sum_cons]
      exact Nat.add_lt_add_left (ih hi hj hc) _

theorem wallCount_carve_lt {n : ℕ} {g : Grid} (hwf : wf n g) {x y : ℕ} {c : ℕ × ℕ}
    (hc : c ∈ neighbors g n x y) : wallCount (carve g x y c) < wallCount g := by
  obtain ⟨h1, h2, h3, h4, hcell, hcand⟩ := mem_neighbors_spec hc
  have hn2 : 2 ≤ n := by omega
  have hc1n : c.1 < n := by omega
  have hc2n : c.2 < n := by omega
  set g0 := setCell g ((x + c.1) / 2) ((y + c.2) / 2) 0 with hg0
  have hwf0 : wf n g0 := wf_setCell hwf _ _ _
  have hne : ((x + c.1) / 2, (y + c.2) / 2) ≠ c := mid_ne_choice hcand h1 h3
  have hne2 : c.1 ≠ (x + c.1) / 2 ∨ c.2 ≠ (y + c.2) / 2 := by
    by_contra hcon
    push_neg at hcon
    exact hne (Prod.ext hcon.1.symm hcon.2.symm)
  have hcell0 : cell g0 c.1 c.2 = 1 := by
    rw [hg0, cell_setCell_other g hne2]
    exact hcell
  have hlt : wallCount (setCell g0 c.1 c.2 0) < wallCount g0 :=
    wallCount_setCell_lt (by rw [hwf0.1]; exact hc1n)
      (by rw [row_length hwf0 hc1n]; exact hc2n) hcell0
  calc wallCount (carve g x y c) = wallCount (setCell g0 c.1 c.2 0) := rfl
    _ < wallCount g0 := hlt
    _ ≤ wallCount g := wallCount_setCell_le g _ _

theorem genLoop_stack_nil (rho : ℕ → ℕ) (n : ℕ) :
    ∀ (fuel : ℕ) (s : GenState), wf n s.grid → loopMeasure s ≤ fuel →
      (genLoop rho n fuel s).stack = [] := by
  intro fuel
  induction fuel with
  | zero =>
    intro s hwf hm
    unfold loopMeasure at hm
    have hs : s.stack = [] := by
      cases h : s.stack with
      | nil => rfl
      | cons a l => rw [h] at hm; simp at hm
    simpa [genLoop]
  | succ fuel ih =>
    intro s hwf hm
    obtain ⟨g, stack, t⟩ := s
    cases stack with
    | nil => simp [genLoop]
    | cons xy rest =>
      obtain ⟨x, y⟩ := xy
      unfold loopMeasure at hm
      simp only [List.length_cons] at hm
      by_cases hns : (neighbors g n x y).isEmpty
      · rw [genLoop]
        simp only [hns, if_true]
        exact ih ⟨g, rest, t⟩ hwf (by unfold loopMeasure; simp; omega)
      · rw [genLoop]
        simp only [hns, if_false]
        set c := (neighbors g n x y).getD (rho t % (neighbors g n x y).length) (0, 0) with hcdef
        have hcmem : c ∈ neighbors g n x y := choice_mem hns _
        have hdec : wallCount (carve g x y c) < wallCount g := wallCount_carve_lt hwf hcmem
        exact ih ⟨carve g x y c, c :: (x, y) :: rest, t + 1⟩
          (wf_setCell (wf_setCell hwf _ _ _) _ _ _)
          (by unfold loopMeasure; simp; omega)

theorem wf_initGrid (n : ℕ) : wf n (initGrid n) := by
  constructor
  · simp [initGrid]
  · intro r hr
    unfold initGrid at hr
    rw [List.eq_of_mem_replicate hr]
    simp

theorem wallCount_initGrid (n : ℕ) : wallCount (initGrid n) = n * n := by
  unfold wallCount initGrid
  rw [List.map_replicate, List.count_replicate_self, List.sum_replicate, smul_eq_mul]

theorem wf_genStart (n : ℕ) : wf n (genStart n).grid := wf_setCell (wf_initGrid n) 1 1 0

/-- C10: for every grid size, every random choice stream and every well-formed
loop state, the stack-driven carving loop empties its stack after finitely many
iterations (any fuel at least `2·(wall count) + |stack|` suffices); in
particular the full generation run always ends with an empty stack, so maze
generation is a total operation. -/
theorem c10_termination :
    (∀ (rho : ℕ → ℕ) (n : ℕ) (s : GenState) (fuel : ℕ),
      wf n s.grid → loopMeasure s ≤ fuel → (genLoop rho n fuel s).stack = []) ∧
    (∀ (rho : ℕ → ℕ) (n : ℕ), (genFull rho n).stack = []) := by
  constructor
  · exact fun rho n s fuel => genLoop_stack_nil rho n fuel s
  · intro rho n
    apply genLoop_stack_nil rho n _ _ (wf_genStart n)
    unfold loopMeasure genStart
    simp only [List.length_cons, List.length_nil]
    have hle := wallCount_setCell_le (initGrid n) 1 1
    rw [wallCount_initGrid] at hle
    rw [Nat.mul_assoc]
    omega

/-- C10 witness: the termination theorem applied to the start state for size 5
with the all-zeros stream and fuel 51. -/
theorem c10_witness :
    wf 5 (genStart 5).grid ∧ loopMeasure (genStart 5) ≤ 51 ∧
      (genLoop rhoZero 5 51 (genStart 5)).stack = [] :=
  ⟨wf_genStart 5, by decide,
    c10_termination.1 rhoZero 5 (genStart 5) 51 (wf_genStart 5) (by decide)⟩

/-!
## Path-count lemmas
-/

theorem count_zero_set_zero (l : List ℕ) (j : ℕ) (hj : j < l.length)
    (h : l.getD j 1 = 1) : (l.set j 0).count 0 = l.count 0 + 1 := by
  induction l generalizing j with
  | nil => simp at hj
  | cons a tl ih =>
    cases j with
    | zero =>
      simp only [List.getD_cons_zero] at h
      subst h
      simp [List.count_cons]
    | succ j =>
      simp only [List.length_cons, Nat.succ_lt_succ_iff] at hj
      simp only [List.getD_cons_succ] at h
      have := ih j hj h
      simp only [List.set_cons_succ, List.count_cons]
      omega

theorem pathCount_setCell_aux (g : Grid) (i j : ℕ) (hi : i < g.length)
    (hj : j < (g.getD i []).length) (hc : cell g i j = 1) :
    pathCount (setCell g i j 0) = pathCount g + 1 := by
  induction g generalizing i with
  | nil => simp at hi
  | cons r tl ih =>
    cases i with
    | zero =>
      simp only [List.getD_cons_zero] at hj
      unfold cell at hc
      simp only [List.getD_cons_zero] at hc
      simp only [setCell, List.getD_cons_zero, List.set_cons_zero, pathCount, List.map_cons,
        List.sum_cons]
      rw [count_zero_set_zero r j hj hc]
      omega
    | succ i =>
      simp only [List.length_cons, Nat.succ_lt_succ_iff] at hi
      simp only [List.getD_cons_succ] at hj
      unfold cell at hc
      simp only [List.getD_cons_succ] at hc
      simp only [setCell, List.getD_cons_succ, List.set_cons_succ, pathCount, List.map_cons,
        List.sum_cons]
      have := ih i hi hj hc
      simp only [setCell, pathCount] at this
      omega

theorem pathCount_setCell {n : ℕ} {g : Grid} (hwf : wf n g) {i j : ℕ}
    (hi : i < n) (hj : j < n) (hc : cell g i j = 1) :
    pathCount (setCell g i j 0) = pathCount g + 1 :=
  pathCount_setCell_aux g i j (hwf.1 ▸ hi) (by rw [row_length hwf hi]; exact hj) hc

theorem getD_replicate {α : Type} (n i : ℕ) (a d : α) :
    (List.replicate n a).getD i d = if i < n then a else d := by
  induction n generalizing i with
  | zero => simp
  | succ n ih =>
    cases i with
    | zero => simp [List.replicate]
    | succ i => simpa [List.replicate] using ih i

theorem cell_initGrid (n i j : ℕ) : cell (initGrid n) i j = 1 := by
  unfold cell initGrid
  rw [getD_replicate]
  by_cases hi : i < n
  · rw [if_pos hi, getD_replicate]
    by_cases hj : j < n <;> simp [hj]
  · rw [if_neg hi]
    simp

theorem pathCount_initGrid (n : ℕ) : pathCount (initGrid n) = 0 := by
  unfold pathCount initGrid
  rw [List.map_replicate]
  have : List.count 0 (List.replicate n 1) = 0 := by
    rw [List.count_replicate]
    simp
  rw [this, List.sum_replicate]
  simp

/-!
## The generation invariant
-/

/-- Invariant of the carving loop.  `hbin`: all cells are `0` or `1`;
`hint`: PATH cells are strictly inside the outer ring; `hpar`: no PATH cell
has both coordinates even; `hmidv`/`hmidh`: a PATH cell with an even
coordinate is a carved corridor cell and its two neighbours along that axis
are PATH; `hstack`: stack cells are PATH nodes at odd-odd coordinates;
`hcount`: carve steps and PATH cells are in lockstep; `hreach`: every PATH
cell is reachable from the start cell `(1,1)`; `hacyc`: the PATH adjacency
graph has no cycle. -/
structure Good (n : ℕ) (s : GenState) : Prop where
  hwf : wf n s.grid
  hbin : ∀ i j, cell s.grid i j = 0 ∨ cell s.grid i j = 1
  hint : ∀ i j, cell s.grid i j = 0 → 1 ≤ i ∧ i < n - 1 ∧ 1 ≤ j ∧ j < n - 1
  hpar : ∀ i j, cell s.grid i j = 0 → ¬(i % 2 = 0 ∧ j % 2 = 0)
  hmidv : ∀ i j, cell s.grid i j = 0 → i % 2 = 0 →
    cell s.grid (i - 1) j = 0 ∧ cell s.grid (i + 1) j = 0
  hmidh : ∀ i j, cell s.grid i j = 0 → j % 2 = 0 →
    cell s.grid i (j - 1) = 0 ∧ cell s.grid i (j + 1) = 0
  hstack : ∀ p ∈ s.stack, cell s.grid p.1 p.2 = 0 ∧ p.1 % 2 = 1 ∧ p.2 % 2 = 1
  hstart : cell s.grid 1 1 = 0
  hcount : pathCount s.grid = 2 * s.t + 1
  hreach : ∀ i j, cell s.grid i j = 0 → (mazeGraph s.grid).Reachable (1, 1) (i, j)
  hacyc : (mazeGraph s.grid).IsAcyclic

theorem cell_genStart (n : ℕ) (hn : 3 ≤ n) (i j : ℕ) :
    cell (genStart n).grid i j = if i = 1 ∧ j = 1 then 0 else 1 := by
  show cell (setCell (initGrid n) 1 1 0) i j = _
  by_cases hij : i = 1 ∧ j = 1
  · obtain ⟨rfl, rfl⟩ := hij
    rw [if_pos ⟨rfl, rfl⟩]
    exact cell_setCell_same (wf_initGrid n) (by omega) (by omega) 0
  · rw [if_neg hij]
    rw [cell_setCell_other _ (by omega), cell_initGrid]

theorem good_start (n : ℕ) (hn : 3 ≤ n) : Good n (genStart n) := by
  have hcell := cell_genStart n hn
  have hpathI : ∀ i j, cell (genStart n).grid i j = 0 ↔ (i = 1 ∧ j = 1) := by
    intro i j
    rw [hcell i j]
    by_cases hij : i = 1 ∧ j = 1 <;> simp [hij]
  refine ⟨wf_genStart n, ?_, ?_, ?_, ?_, ?_, ?_, ?_, ?_, ?_, ?_⟩
  · intro i j
    rw [hcell i j]
    by_cases hij : i = 1 ∧ j = 1 <;> simp [hij]
  · intro i j h
    obtain ⟨rfl, rfl⟩ := (hpathI i j).1 h
    omega
  · intro i j h
    obtain ⟨rfl, rfl⟩ := (hpathI i j).1 h
    omega
  · intro i j h he
    obtain ⟨rfl, rfl⟩ := (hpathI i j).1 h
    omega
  · intro i j h he
    obtain ⟨rfl, rfl⟩ := (hpathI i j).1 h
    omega
  · intro p hp
    simp only [genStart, List.mem_singleton] at hp
    subst hp
    exact ⟨(hpathI 1 1).2 ⟨rfl, rfl⟩, rfl, rfl⟩
  · exact (hpathI 1 1).2 ⟨rfl, rfl⟩
  · show pathCount (setCell (initGrid n) 1 1 0) = 2 * 0 + 1
    rw [pathCount_setCell (wf_initGrid n) (by omega) (by omega) (cell_initGrid n 1 1),
      pathCount_initGrid]
  · intro i j h
    obtain ⟨rfl, rfl⟩ := (hpathI i j).1 h
    exact SimpleGraph.Reachable.refl _
  · intro v c hc
    cases c with
    | nil => exact hc.ne_nil rfl
    | cons hadj c1 =>
      rename_i b
      obtain ⟨h1, h2, h3⟩ := hadj
      have hv := (hpathI v.1 v.2).1 h1
      have hb := (hpathI b.1 b.2).1 h2
      have hvb : v = b := by
        obtain ⟨v1, v2⟩ := v
        obtain ⟨b1, b2⟩ := b
        simp_all
      exact absurd hvb (nextTo_ne h3)

/-!
## Geometry of a single carve step
-/

theorem carve_shape {n x y : ℕ} {c : ℕ × ℕ}
    (hx : x % 2 = 1) (hy : y % 2 = 1)
    (hcand : c = (x, y + 2) ∨ c = (x, y - 2) ∨ c = (x + 2, y) ∨ c = (x - 2, y))
    (h1 : 0 < c.1) (h2 : c.1 < n - 1) (h3 : 0 < c.2) (h4 : c.2 < n - 1)
    (hxlo : 1 ≤ x) (hxhi : x < n - 1) (hylo : 1 ≤ y) (hyhi : y < n - 1) :
    c.1 % 2 = 1 ∧ c.2 % 2 = 1 ∧
    nextTo (x, y) ((x + c.1) / 2, (y + c.2) / 2) ∧
    nextTo ((x + c.1) / 2, (y + c.2) / 2) c ∧
    ((x + c.1) / 2 ≠ x ∨ (y + c.2) / 2 ≠ y) ∧
    ((x + c.1) / 2 ≠ c.1 ∨ (y + c.2) / 2 ≠ c.2) ∧ (c.1 ≠ x ∨ c.2 ≠ y) ∧
    1 ≤ (x + c.1) / 2 ∧ (x + c.1) / 2 < n - 1 ∧ 1 ≤ (y + c.2) / 2 ∧ (y + c.2) / 2 < n - 1 ∧
    (((x + c.1) / 2) % 2 = 0 →
       ((x + c.1) / 2 - 1 = x ∧ (y + c.2) / 2 = y ∧ (x + c.1) / 2 + 1 = c.1 ∧
          (y + c.2) / 2 = c.2) ∨
       ((x + c.1) / 2 - 1 = c.1 ∧ (y + c.2) / 2 = c.2 ∧ (x + c.1) / 2 + 1 = x ∧
          (y + c.2) / 2 = y)) ∧
    (((y + c.2) / 2) % 2 = 0 →
       ((y + c.2) / 2 - 1 = y ∧ (x + c.1) / 2 = x ∧ (y + c.2) / 2 + 1 = c.2 ∧
          (x + c.1) / 2 = c.1) ∨
       ((y + c.2) / 2 - 1 = c.2 ∧ (x + c.1) / 2 = c.1 ∧ (y + c.2) / 2 + 1 = y ∧
          (x + c.1) / 2 = x)) ∧
    (((x + c.1) / 2) % 2 = 0 ∨ ((y + c.2) / 2) % 2 = 0) ∧
    ¬(((x + c.1) / 2) % 2 = 0 ∧ ((y + c.2) / 2) % 2 = 0) := by
  rcases hcand with rfl | rfl | rfl | rfl <;>
    simp only [nextTo, ne_eq, Prod.mk.injEq, not_and] <;> omega

/-!
## Graph helper lemmas
-/

theorem le_mazeGraph_of_mono {g g1 : Grid}
    (hmono : ∀ a b, cell g a b = 0 → cell g1 a b = 0) :
    mazeGraph g ≤ mazeGraph g1 := by
  intro p q hadj
  exact ⟨hmono _ _ hadj.1, hmono _ _ hadj.2.1, hadj.2.2⟩

theorem cycle_at_two_nbrs {V : Type} {G : SimpleGraph V} {u : V} (q : G.Walk u u)
    (hqc : q.IsCycle) :
    ∃ a b, a ≠ b ∧ G.Adj u a ∧ G.Adj u b ∧ a ∈ q.support ∧ b ∈ q.support := by
  cases q with
  | nil => exact absurd rfl hqc.ne_nil
  | cons hadj q1 =>
    rename_i a
    have h3 : 3 ≤ (SimpleGraph.Walk.cons hadj q1).length := hqc.three_le_length
    simp only [SimpleGraph.Walk.length_cons] at h3
    cases hrev : q1.reverse with
    | nil =>
      have : q1.length = 0 := by
        have := SimpleGraph.Walk.length_reverse q1
        rw [hrev] at this
        simpa using this.symm
      omega
    | cons hadj2 q2 =>
      rename_i b
      refine ⟨a, b, ?_, hadj, hadj2, ?_, ?_⟩
      · -- a ≠ b since the first and last edges of a trail of length ≥ 3 differ
        intro hab
        subst hab
        have hnodup := hqc.edges_nodup
        have hq1e : q1.edges = q2.edges.reverse ++ [s(u, a)] := by
          have hrr : q1 = q1.reverse.reverse := (SimpleGraph.Walk.reverse_reverse q1).symm
          rw [hrr, hrev]
          rw [SimpleGraph.Walk.edges_reverse]
          simp [Sym2.eq_swap]
        rw [SimpleGraph.Walk.edges_cons, hq1e] at hnodup
        have : s(u, a) ∈ q2.edges.reverse ++ [s(u, a)] := by simp
        exact (List.nodup_cons.1 hnodup).1 this
      · rw [SimpleGraph.Walk.support_cons]
        exact List.mem_cons_of_mem _ q1.start_mem_support
      · rw [SimpleGraph.Walk.support_cons]
        apply List.mem_cons_of_mem
        have hb : b ∈ q1.reverse.support := by
          rw [hrev, SimpleGraph.Walk.support_cons]
          exact List.mem_cons_of_mem _ q2.start_mem_support
        rw [SimpleGraph.Walk.support_reverse, List.mem_reverse] at hb
        exact hb

theorem cycle_two_nbrs {V : Type} [DecidableEq V] {G : SimpleGraph V} {v u : V} (p : G.Walk v v)
    (hc : p.IsCycle) (hu : u ∈ p.support) :
    ∃ a b, a ≠ b ∧ G.Adj u a ∧ G.Adj u b ∧ a ∈ p.support ∧ b ∈ p.support := by
  obtain ⟨a, b, hab, ha, hb, has, hbs⟩ := cycle_at_two_nbrs (p.rotate hu) (hc.rotate hu)
  have hmem : ∀ w, w ∈ (p.rotate hu).support → w ∈ p.support := by
    intro w hw
    rw [SimpleGraph.Walk.support_eq_cons] at hw
    rcases List.mem_cons.1 hw with rfl | hw2
    · exact hu
    · have hrot := SimpleGraph.Walk.support_rotate p hu
      have : w ∈ p.support.tail := hrot.mem_iff.1 hw2
      rw [SimpleGraph.Walk.support_eq_cons p]
      exact List.mem_cons_of_mem _ this
  exact ⟨a, b, hab, ha, hb, hmem a has, hmem b hbs⟩

theorem acyclic_attach {V : Type} [DecidableEq V] {G G1 : SimpleGraph V} {a m c : V}
    (hnew : ∀ u w, G1.Adj u w → u ≠ m → u ≠ c → w ≠ m → w ≠ c → G.Adj u w)
    (hcnbr : ∀ u, G1.Adj c u → u = m)
    (hmnbr : ∀ u, G1.Adj m u → u = a ∨ u = c)
    (hGacyc : G.IsAcyclic) : G1.IsAcyclic := by
  intro v p hp
  by_cases hcm : c ∈ p.support
  · obtain ⟨a1, b1, hne, ha1, hb1, _, _⟩ := cycle_two_nbrs p hp hcm
    exact hne ((hcnbr _ ha1).trans (hcnbr _ hb1).symm)
  by_cases hmm : m ∈ p.support
  · obtain ⟨a1, b1, hne, ha1, hb1, has, hbs⟩ := cycle_two_nbrs p hp hmm
    rcases hmnbr _ ha1 with rfl | rfl
    · rcases hmnbr _ hb1 with rfl | rfl
      · exact hne rfl
      · exact hcm hbs
    · exact hcm has
  · have hedges : ∀ e ∈ p.edges, e ∈ G.edgeSet := by
      intro e he
      induction e with
      | h u w =>
        have hadj : G1.Adj u w := p.adj_of_mem_edges he
        have hus : u ∈ p.support := p.fst_mem_support_of_mem_edges he
        have hws : w ∈ p.support := p.snd_mem_support_of_mem_edges he
        exact (hnew u w hadj (fun h => hmm (h ▸ hus)) (fun h => hcm (h ▸ hus))
          (fun h => hmm (h ▸ hws)) (fun h => hcm (h ▸ hws)))
    exact hGacyc (p.transfer G hedges) (hp.transfer hedges)

/-!
## Preservation of the invariant
-/

theorem prodNe {p q : ℕ × ℕ} (h : ¬(p.1 = q.1 ∧ p.2 = q.2)) : p ≠ q := by
  intro he
  exact h ⟨congrArg Prod.fst he, congrArg Prod.snd he⟩

theorem good_pop {n : ℕ} {g : Grid} {p : ℕ × ℕ} {rest : List (ℕ × ℕ)} {t : ℕ}
    (hs : Good n ⟨g, p :: rest, t⟩) : Good n ⟨g, rest, t⟩ := by
  obtain ⟨h1, h2, h3, h4, h5, h6, h7, h8, h9, h10, h11⟩ := hs
  exact ⟨h1, h2, h3, h4, h5, h6, fun q hq => h7 q (List.mem_cons_of_mem _ hq),
    h8, h9, h10, h11⟩

set_option maxHeartbeats 1000000 in
theorem good_carve {n : ℕ} {g : Grid} {x y t : ℕ} {rest : List (ℕ × ℕ)}
    (hs : Good n ⟨g, (x, y) :: rest, t⟩) {c : ℕ × ℕ} (hc : c ∈ neighbors g n x y) :
    Good n ⟨carve g x y c, c :: (x, y) :: rest, t + 1⟩ := by
  obtain ⟨hwf, hbin, hint, hpar, hmidv, hmidh, hstack, hstart, hcount, hreach, hacyc⟩ := hs
  replace hwf : wf n g := hwf
  replace hbin : ∀ i j, cell g i j = 0 ∨ cell g i j = 1 := hbin
  replace hint : ∀ i j, cell g i j = 0 → 1 ≤ i ∧ i < n - 1 ∧ 1 ≤ j ∧ j < n - 1 := hint
  replace hpar : ∀ i j, cell g i j = 0 → ¬(i % 2 = 0 ∧ j % 2 = 0) := hpar
  replace hmidv : ∀ i j, cell g i j = 0 → i % 2 = 0 →
    cell g (i - 1) j = 0 ∧ cell g (i + 1) j = 0 := hmidv
  replace hmidh : ∀ i j, cell g i j = 0 → j % 2 = 0 →
    cell g i (j - 1) = 0 ∧ cell g i (j + 1) = 0 := hmidh
  replace hstart : cell g 1 1 = 0 := hstart
  replace hcount : pathCount g = 2 * t + 1 := hcount
  replace hreach : ∀ i j, cell g i j = 0 → (mazeGraph g).Reachable (1, 1) (i, j) := hreach
  replace hacyc : (mazeGraph g).IsAcyclic := hacyc
  obtain ⟨hc1, hc2, hc3, hc4, hcw, hcand⟩ := mem_neighbors_spec hc
  have hxyStack := hstack (x, y) (List.mem_cons_self _ _)
  have hxyp : cell g x y = 0 := hxyStack.1
  have hxo : x % 2 = 1 := hxyStack.2.1
  have hyo : y % 2 = 1 := hxyStack.2.2
  obtain ⟨hx1, hx2, hy1, hy2⟩ := hint x y hxyp
  obtain ⟨hodd1, hodd2, hnxm, hnmc, hne1, hne2, hne3, hm1, hm2, hm3, hm4,
    hvsh, hhsh, heor, hnand⟩ :=
    carve_shape hxo hyo hcand hc1 hc2 hc3 hc4 hx1 hx2 hy1 hy2
  have hn3 : 3 ≤ n := by omega
  have hwmid : wf n (setCell g ((x + c.1) / 2) ((y + c.2) / 2) 0) := wf_setCell hwf _ _ _
  have hwf1 : wf n (carve g x y c) := wf_setCell hwmid _ _ _
  have hcellc : cell (carve g x y c) c.1 c.2 = 0 := by
    unfold carve
    exact cell_setCell_same hwmid (by omega) (by omega) 0
  have hcellm : cell (carve g x y c) ((x + c.1) / 2) ((y + c.2) / 2) = 0 := by
    unfold carve
    rw [cell_setCell_other _ hne2]
    exact cell_setCell_same hwf (by omega) (by omega) 0
  have hold : ∀ a b, (a ≠ (x + c.1) / 2 ∨ b ≠ (y + c.2) / 2) → (a ≠ c.1 ∨ b ≠ c.2) →
      cell (carve g x y c) a b = cell g a b := by
    intro a b hm hcc
    unfold carve
    rw [cell_setCell_other _ hcc, cell_setCell_other _ hm]
  have hmono : ∀ a b, cell g a b = 0 → cell (carve g x y c) a b = 0 := by
    intro a b h5
    by_cases hmm : a = (x + c.1) / 2 ∧ b = (y + c.2) / 2
    · obtain ⟨rfl, rfl⟩ := hmm
      exact hcellm
    · by_cases hcc : a = c.1 ∧ b = c.2
      · obtain ⟨rfl, rfl⟩ := hcc
        exact hcellc
      · rw [hold a b (by omega) (by omega)]
        exact h5
  -- the midpoint was still a wall
  have hmwall : cell g ((x + c.1) / 2) ((y + c.2) / 2) = 1 := by
    rcases hbin ((x + c.1) / 2) ((y + c.2) / 2) with h0 | h1
    · exfalso
      rcases heor with he | he
      · have hmv := hmidv _ _ h0 he
        rcases hvsh he with ⟨e1, e2, e3, e4⟩ | ⟨e1, e2, e3, e4⟩
        · have h2 := hmv.2
          rw [e3, e4] at h2
          omega
        · have h2 := hmv.1
          rw [e1, e2] at h2
          omega
      · have hmh := hmidh _ _ h0 he
        rcases hhsh he with ⟨e1, e2, e3, e4⟩ | ⟨e1, e2, e3, e4⟩
        · have h2 := hmh.2
          rw [e3, e4] at h2
          omega
        · have h2 := hmh.1
          rw [e1, e2] at h2
          omega
    · exact h1
  -- the eleven fields of the new invariant, with clean statements
  have fbin : ∀ i j, cell (carve g x y c) i j = 0 ∨ cell (carve g x y c) i j = 1 := by
    intro a b
    by_cases hmm : a = (x + c.1) / 2 ∧ b = (y + c.2) / 2
    · obtain ⟨rfl, rfl⟩ := hmm
      exact Or.inl hcellm
    · by_cases hcc : a = c.1 ∧ b = c.2
      · obtain ⟨rfl, rfl⟩ := hcc
        exact Or.inl hcellc
      · rw [hold a b (by omega) (by omega)]
        exact hbin a b
  have fint : ∀ i j, cell (carve g x y c) i j = 0 →
      1 ≤ i ∧ i < n - 1 ∧ 1 ≤ j ∧ j < n - 1 := by
    intro a b h5
    by_cases hmm : a = (x + c.1) / 2 ∧ b = (y + c.2) / 2
    · omega
    · by_cases hcc : a = c.1 ∧ b = c.2
      · omega
      · rw [hold a b (by omega) (by omega)] at h5
        exact hint a b h5
  have fpar : ∀ i j, cell (carve g x y c) i j = 0 → ¬(i % 2 = 0 ∧ j % 2 = 0) := by
    intro a b h5
    by_cases hmm : a = (x + c.1) / 2 ∧ b = (y + c.2) / 2
    · obtain ⟨rfl, rfl⟩ := hmm
      exact hnand
    · by_cases hcc : a = c.1 ∧ b = c.2
      · omega
      · rw [hold a b (by omega) (by omega)] at h5
        exact hpar a b h5
  have fmidv : ∀ i j, cell (carve g x y c) i j = 0 → i % 2 = 0 →
      cell (carve g x y c) (i - 1) j = 0 ∧ cell (carve g x y c) (i + 1) j = 0 := by
    intro a b h5 he
    by_cases hmm : a = (x + c.1) / 2 ∧ b = (y + c.2) / 2
    · obtain ⟨rfl, rfl⟩ := hmm
      rcases hvsh he with ⟨e1, e2, e3, e4⟩ | ⟨e1, e2, e3, e4⟩
      · refine ⟨?_, ?_⟩
        · rw [e1, e2]
          exact hmono x y hxyp
        · rw [e3, e4]
          exact hcellc
      · refine ⟨?_, ?_⟩
        · rw [e1, e2]
          exact hcellc
        · rw [e3, e4]
          exact hmono x y hxyp
    · by_cases hcc : a = c.1 ∧ b = c.2
      · omega
      · rw [hold a b (by omega) (by omega)] at h5
        have h6 := hmidv a b h5 he
        exact ⟨hmono _ _ h6.1, hmono _ _ h6.2⟩
  have fmidh : ∀ i j, cell (carve g x y c) i j = 0 → j % 2 = 0 →
      cell (carve g x y c) i (j - 1) = 0 ∧ cell (carve g x y c) i (j + 1) = 0 := by
    intro a b h5 he
    by_cases hmm : a = (x + c.1) / 2 ∧ b = (y + c.2) / 2
    · obtain ⟨rfl, rfl⟩ := hmm
      rcases hhsh he with ⟨e1, e2, e3, e4⟩ | ⟨e1, e2, e3, e4⟩
      · refine ⟨?_, ?_⟩
        · rw [e1, e2]
          exact hmono x y hxyp
        · rw [e3, e4]
          exact hcellc
      · refine ⟨?_, ?_⟩
        · rw [e1, e2]
          exact hcellc
        · rw [e3, e4]
          exact hmono x y hxyp
    · by_cases hcc : a = c.1 ∧ b = c.2
      · omega
      · rw [hold a b (by omega) (by omega)] at h5
        have h6 := hmidh a b h5 he
        exact ⟨hmono _ _ h6.1, hmono _ _ h6.2⟩
  have fstk : ∀ p ∈ c :: (x, y) :: rest,
      cell (carve g x y c) p.1 p.2 = 0 ∧ p.1 % 2 = 1 ∧ p.2 % 2 = 1 := by
    intro p hp
    rcases List.mem_cons.1 hp with rfl | hp2
    · exact ⟨hcellc, hodd1, hodd2⟩
    · rcases List.mem_cons.1 hp2 with rfl | hp3
      · exact ⟨hmono x y hxyp, hxo, hyo⟩
      · obtain ⟨hq1, hq2, hq3⟩ := hstack p (List.mem_cons_of_mem _ hp3)
        exact ⟨hmono _ _ hq1, hq2, hq3⟩
  have fstart : cell (carve g x y c) 1 1 = 0 := hmono 1 1 hstart
  have fcount : pathCount (carve g x y c) = 2 * (t + 1) + 1 := by
    have hstep1 : pathCount (setCell g ((x + c.1) / 2) ((y + c.2) / 2) 0) = pathCount g + 1 :=
      pathCount_setCell hwf (by omega) (by omega) hmwall
    have hcw2 : cell (setCell g ((x + c.1) / 2) ((y + c.2) / 2) 0) c.1 c.2 = 1 := by
      rw [cell_setCell_other _ (by omega)]
      exact hcw
    have hstep2 : pathCount (carve g x y c) =
        pathCount (setCell g ((x + c.1) / 2) ((y + c.2) / 2) 0) + 1 :=
      pathCount_setCell hwmid (by omega) (by omega) hcw2
    omega
  have freach : ∀ i j, cell (carve g x y c) i j = 0 →
      (mazeGraph (carve g x y c)).Reachable (1, 1) (i, j) := by
    have hGle := le_mazeGraph_of_mono hmono
    have hadjxm : (mazeGraph (carve g x y c)).Adj (x, y) ((x + c.1) / 2, (y + c.2) / 2) :=
      ⟨hmono x y hxyp, hcellm, hnxm⟩
    have hadjmc : (mazeGraph (carve g x y c)).Adj ((x + c.1) / 2, (y + c.2) / 2) c :=
      ⟨hcellm, hcellc, hnmc⟩
    have hreachm : (mazeGraph (carve g x y c)).Reachable (1, 1)
        ((x + c.1) / 2, (y + c.2) / 2) :=
      ((hreach x y hxyp).mono hGle).trans hadjxm.reachable
    have hreachc : (mazeGraph (carve g x y c)).Reachable (1, 1) c :=
      hreachm.trans hadjmc.reachable
    intro a b h5
    by_cases hmm : a = (x + c.1) / 2 ∧ b = (y + c.2) / 2
    · obtain ⟨rfl, rfl⟩ := hmm
      exact hreachm
    · by_cases hcc : a = c.1 ∧ b = c.2
      · obtain ⟨rfl, rfl⟩ := hcc
        exact hreachc
      · rw [hold a b (by omega) (by omega)] at h5
        exact (hreach a b h5).mono hGle
  have facyc : (mazeGraph (carve g x y c)).IsAcyclic := by
    apply acyclic_attach (G := mazeGraph g) (a := (x, y))
      (m := ((x + c.1) / 2, (y + c.2) / 2)) (c := c) ?_ ?_ ?_ hacyc
    -- new edges only touch the two new vertices
    · intro u w hadj hum huc hwm hwc
      obtain ⟨ha1, ha2, ha3⟩ := hadj
      have hu5 : u.1 ≠ (x + c.1) / 2 ∨ u.2 ≠ (y + c.2) / 2 := by
        by_contra hcon
        push_neg at hcon
        exact hum (Prod.ext hcon.1 hcon.2)
      have hu6 : u.1 ≠ c.1 ∨ u.2 ≠ c.2 := by
        by_contra hcon
        push_neg at hcon
        exact huc (Prod.ext hcon.1 hcon.2)
      have hw5 : w.1 ≠ (x + c.1) / 2 ∨ w.2 ≠ (y + c.2) / 2 := by
        by_contra hcon
        push_neg at hcon
        exact hwm (Prod.ext hcon.1 hcon.2)
      have hw6 : w.1 ≠ c.1 ∨ w.2 ≠ c.2 := by
        by_contra hcon
        push_neg at hcon
        exact hwc (Prod.ext hcon.1 hcon.2)
      rw [hold u.1 u.2 hu5 hu6] at ha1
      rw [hold w.1 w.2 hw5 hw6] at ha2
      exact ⟨ha1, ha2, ha3⟩
    -- every new-graph neighbour of `c` is the midpoint
    · intro u hadj
      obtain ⟨ha1, ha2, ha3⟩ := hadj
      by_cases hum : u = ((x + c.1) / 2, (y + c.2) / 2)
      · exact hum
      exfalso
      have huc : u ≠ c := fun he => nextTo_ne ha3 he.symm
      have hu5 : u.1 ≠ (x + c.1) / 2 ∨ u.2 ≠ (y + c.2) / 2 := by
        by_contra hcon
        push_neg at hcon
        exact hum (Prod.ext hcon.1 hcon.2)
      have hu6 : u.1 ≠ c.1 ∨ u.2 ≠ c.2 := by
        by_contra hcon
        push_neg at hcon
        exact huc (Prod.ext hcon.1 hcon.2)
      rw [hold u.1 u.2 hu5 hu6] at ha2
      rcases ha3 with ⟨hb1, hb2 | hb2⟩ | ⟨hb1, hb2 | hb2⟩
      · have hue : u.2 % 2 = 0 := by omega
        have h7 := (hmidh u.1 u.2 ha2 hue).1
        rw [show u.1 = c.1 by omega, show u.2 - 1 = c.2 by omega] at h7
        omega
      · have hue : u.2 % 2 = 0 := by omega
        have h7 := (hmidh u.1 u.2 ha2 hue).2
        rw [show u.1 = c.1 by omega, show u.2 + 1 = c.2 by omega] at h7
        omega
      · have hue : u.1 % 2 = 0 := by omega
        have h7 := (hmidv u.1 u.2 ha2 hue).1
        rw [show u.1 - 1 = c.1 by omega, show u.2 = c.2 by omega] at h7
        omega
      · have hue : u.1 % 2 = 0 := by omega
        have h7 := (hmidv u.1 u.2 ha2 hue).2
        rw [show u.1 + 1 = c.1 by omega, show u.2 = c.2 by omega] at h7
        omega
    -- every new-graph neighbour of the midpoint is the stack top or `c`
    · intro u hadj
      obtain ⟨ha1, ha2, ha3⟩ := hadj
      by_cases hux : u = (x, y)
      · exact Or.inl hux
      by_cases huc : u = c
      · exact Or.inr huc
      exfalso
      have hum : u ≠ ((x + c.1) / 2, (y + c.2) / 2) := fun he => nextTo_ne ha3 he.symm
      have hu5 : u.1 ≠ (x + c.1) / 2 ∨ u.2 ≠ (y + c.2) / 2 := by
        by_contra hcon
        push_neg at hcon
        exact hum (Prod.ext hcon.1 hcon.2)
      have hu6 : u.1 ≠ c.1 ∨ u.2 ≠ c.2 := by
        by_contra hcon
        push_neg at hcon
        exact huc (Prod.ext hcon.1 hcon.2)
      have hu7 : u.1 ≠ x ∨ u.2 ≠ y := by
        by_contra hcon
        push_neg at hcon
        exact hux (Prod.ext hcon.1 hcon.2)
      rw [hold u.1 u.2 hu5 hu6] at ha2
      rcases heor with he | he
      · have he2 : ((y + c.2) / 2) % 2 = 1 := by omega
        rcases ha3 with ⟨hb1, hb2⟩ | ⟨hb1, hb2⟩
        · exact hpar u.1 u.2 ha2 ⟨by omega, by omega⟩
        · rcases hvsh he with ⟨e1, e2, e3, e4⟩ | ⟨e1, e2, e3, e4⟩ <;> omega
      · have he2 : ((x + c.1) / 2) % 2 = 1 := by omega
        rcases ha3 with ⟨hb1, hb2⟩ | ⟨hb1, hb2⟩
        · rcases hhsh he with ⟨e1, e2, e3, e4⟩ | ⟨e1, e2, e3, e4⟩ <;> omega
        · exact hpar u.1 u.2 ha2 ⟨by omega, by omega⟩
  exact ⟨hwf1, fbin, fint, fpar, fmidv, fmidh, fstk, fstart, fcount, freach, facyc⟩

theorem good_genLoop (rho : ℕ → ℕ) (n : ℕ) :
    ∀ (fuel : ℕ) (s : GenState), Good n s → Good n (genLoop rho n fuel s) := by
  intro fuel
  induction fuel with
  | zero =>
    intro s hs
    simpa [genLoop] using hs
  | succ fuel ih =>
    intro s hs
    obtain ⟨g, stack, t⟩ := s
    cases stack with
    | nil => simpa [genLoop] using hs
    | cons xy rest =>
      obtain ⟨x, y⟩ := xy
      by_cases hns : (neighbors g n x y).isEmpty
      · rw [genLoop]
        simp only [hns, if_true]
        exact ih _ (good_pop hs)
      · rw [genLoop]
        simp only [hns, if_false]
        exact ih _ (good_carve hs (choice_mem hns _))

theorem good_final (rho : ℕ → ℕ) {n : ℕ} (hn : 3 ≤ n) : Good n (genFull rho n) :=
  good_genLoop rho n _ _ (good_start n hn)

/-!
## C7 — the carve / path-cell count
-/

/-- C7 counterexample: with size `5` and the all-zeros stream, generation
performs `3` carve steps (each clearing one midpoint), while the finished grid
has `7` PATH cells — so the number of midpoint clears is `3`, not
`7 − 1 = 6`.  Each carve step clears *two* cells (the midpoint and the
destination), which is where the factor of two comes from. -/
theorem c7_counterexample :
    (genFull rhoZero 5).t = 3 ∧ pathCount (generate_maze rhoZero 5) = 7 ∧
      (genFull rhoZero 5).t ≠ pathCount (generate_maze rhoZero 5) - 1 := by decide

/-- C7 (amended): every carve step clears exactly two WALL cells (the midpoint
and the destination cell), so for every size `n ≥ 3` and every random stream
the number of cells cleared from WALL to PATH during generation, which is
`2 ×` (number of carve steps), equals the number of PATH cells of the finished
grid minus one: `pathCount = 2·carves + 1`. -/
theorem c7_carve_count (rho : ℕ → ℕ) (n : ℕ) (hn : 3 ≤ n) :
    pathCount (generate_maze rho n) = 2 * (genFull rho n).t + 1 :=
  (good_final rho hn).hcount

/-- C7 witness: the carve-count theorem applied at size `5` with the all-zeros
stream. -/
theorem c7_witness :
    (3 : ℕ) ≤ 5 ∧ pathCount (generate_maze rhoZero 5) = 2 * (genFull rhoZero 5).t + 1 :=
  ⟨by decide, c7_carve_count rhoZero 5 (by decide)⟩

/-!
## C2 — the perfect-maze postcondition
-/

/-- C2: for every valid odd size `n ≥ 5` and every random choice stream, the
PATH cells of the generated grid form exactly one connected component under
4-adjacency — every PATH cell is reachable from the start cell `(1,1)` —
and the PATH adjacency graph is acyclic, so there is exactly one simple path
between any two cells. -/
theorem c2_perfect_maze (rho : ℕ → ℕ) (n : ℕ) (h1 : Odd n) (h2 : 5 ≤ n) :
    (∀ p : ℕ × ℕ, cell (generate_maze rho n) p.1 p.2 = 0 →
      (mazeGraph (generate_maze rho n)).Reachable (1, 1) p) ∧
    (mazeGraph (generate_maze rho n)).IsAcyclic ∧
    (∀ (u v : ℕ × ℕ) (p q : (mazeGraph (generate_maze rho n)).Path u v), p = q) := by
  have hg := good_final rho (n := n) (by omega)
  refine ⟨?_, hg.hacyc, ?_⟩
  · intro p hp
    exact hg.hreach p.1 p.2 hp
  · exact SimpleGraph.isAcyclic_iff_path_unique.mp hg.hacyc

/-- C2 witness: the perfect-maze theorem applied at the odd size `5` with the
all-zeros stream. -/
theorem c2_witness :
    (∀ p : ℕ × ℕ, cell (generate_maze rhoZero 5) p.1 p.2 = 0 →
      (mazeGraph (generate_maze rhoZero 5)).Reachable (1, 1) p) ∧
    (mazeGraph (generate_maze rhoZero 5)).IsAcyclic ∧
    (∀ (u v : ℕ × ℕ) (p q : (mazeGraph (generate_maze rhoZero 5)).Path u v), p = q) :=
  c2_perfect_maze rhoZero 5 ⟨2, rfl⟩ (by decide)

/-!
## C8 — goal selection
-/

theorem mem_scanList {n : ℕ} {p : ℕ × ℕ} :
    p ∈ scanList n ↔ 1 ≤ p.1 ∧ p.1 < n ∧ 1 ≤ p.2 ∧ p.2 < n := by
  obtain ⟨a, b⟩ := p
  unfold scanList
  rw [List.mem_flatMap]
  constructor
  · rintro ⟨x, hx, hmem⟩
    rw [List.mem_map] at hmem
    obtain ⟨z, hz, heq⟩ := hmem
    rw [List.mem_reverse, List.mem_range'_1] at hx hz
    obtain ⟨rfl, rfl⟩ : x = a ∧ z = b :=
      ⟨congrArg Prod.fst heq, congrArg Prod.snd heq⟩
    dsimp only
    omega
  · rintro ⟨h1, h2, h3, h4⟩
    refine ⟨a, ?_, ?_⟩
    · rw [List.mem_reverse, List.mem_range'_1]
      dsimp only at h1 h2
      omega
    · rw [List.mem_map]
      refine ⟨b, ?_, rfl⟩
      rw [List.mem_reverse, List.mem_range'_1]
      dsimp only at h3 h4
      omega

theorem scanList_pairwise (n : ℕ) :
    (scanList n).Pairwise (fun e f : ℕ × ℕ => f.1 < e.1 ∨ (f.1 = e.1 ∧ f.2 < e.2)) := by
  unfold scanList
  have hzs : ((List.range' 1 (n - 1)).reverse).Pairwise (· > ·) :=
    List.pairwise_reverse.2 (List.pairwise_lt_range' 1 (n - 1))
  generalize ((List.range' 1 (n - 1)).reverse) = zs at hzs ⊢
  suffices h : ∀ xs : List ℕ, xs.Pairwise (· > ·) →
      (xs.flatMap (fun x => zs.map (fun z => (x, z)))).Pairwise
        (fun e f : ℕ × ℕ => f.1 < e.1 ∨ (f.1 = e.1 ∧ f.2 < e.2)) by
    exact h zs hzs
  intro xs hxs
  induction xs with
  | nil => simp
  | cons x xs2 ih =>
    rw [List.pairwise_cons] at hxs
    rw [List.flatMap_cons, List.pairwise_append]
    refine ⟨?_, ih hxs.2, ?_⟩
    · rw [List.pairwise_map]
      exact hzs.imp (fun h2 => Or.inr ⟨rfl, h2⟩)
    · intro a ha b hb
      obtain ⟨z1, hz1, rfl⟩ := List.mem_map.1 ha
      obtain ⟨x2, hx2, z2, hz2, rfl⟩ := by
        simpa only [List.mem_flatMap, List.mem_map] using hb
      exact Or.inl (hxs.1 x2 hx2)

theorem find?_sorted_first {α : Type} (pred : α → Bool) (R : α → α → Prop)
    (hasym : ∀ x y, R x y → ¬ R y x) :
    ∀ l : List α, l.Pairwise R → ∀ a, l.find? pred = some a →
      ∀ b ∈ l, R b a → pred b = false := by
  intro l
  induction l with
  | nil => intro _ a ha; simp at ha
  | cons x tl ih =>
    intro hpair a hfind b hb hR
    rw [List.pairwise_cons] at hpair
    by_cases hx : pred x = true
    · rw [List.find?_cons_of_pos _ hx] at hfind
      have hax : a = x := by
        injection hfind with h
        exact h.symm
      subst hax
      rcases List.mem_cons.1 hb with rfl | hbtl
      · exact absurd hR (hasym _ _ hR)
      · exact absurd hR (hasym _ _ (hpair.1 b hbtl))
    · rw [List.find?_cons_of_neg _ hx] at hfind
      rcases List.mem_cons.1 hb with rfl | hbtl
      · exact Bool.not_eq_true _ ▸ hx
      · exact ih hpair.2 a hfind b hbtl hR

/-- C8: for every generated grid (size `n ≥ 3`), `find_valid_portal_position`
returns the first PATH cell in the scan order (rows `n−1` down to `1`, and
within a row columns `n−1` down to `1`): the result is an in-bounds PATH cell,
the underlying scan does find a PATH cell — so the `(1,1)` fallback branch is
never the result — and every cell strictly earlier in the scan order is WALL. -/
theorem c8_goal_selection (rho : ℕ → ℕ) (n : ℕ) (hn : 3 ≤ n) (g : Grid) (p : ℕ × ℕ)
    (hg : g = generate_maze rho n) (hp : p = find_valid_portal_position n g) :
    cell g p.1 p.2 = 0 ∧ (1 ≤ p.1 ∧ p.1 < n ∧ 1 ≤ p.2 ∧ p.2 < n) ∧
    (scanList n).find? (fun q => cell g q.1 q.2 == 0) = some p ∧
    (∀ a b, 1 ≤ a → a < n → 1 ≤ b → b < n →
      (p.1 < a ∨ (p.1 = a ∧ p.2 < b)) → cell g a b = 1) := by
  subst hg
  have hgood := good_final rho hn
  have hstart : cell (generate_maze rho n) 1 1 = 0 := hgood.hstart
  have hsome : ((scanList n).find? (fun q => cell (generate_maze rho n) q.1 q.2 == 0)).isSome
      = true := by
    rw [List.find?_isSome]
    refine ⟨(1, 1), mem_scanList.2 ⟨le_refl 1, by omega, le_refl 1, by omega⟩, ?_⟩
    simpa using hstart
  obtain ⟨p0, hp0⟩ := Option.isSome_iff_exists.1 hsome
  have hpp0 : p = p0 := by
    rw [hp]
    unfold find_valid_portal_position
    rw [hp0]
    rfl
  subst hpp0
  have hpred : cell (generate_maze rho n) p.1 p.2 = 0 := by
    have := List.find?_some hp0
    simpa using this
  have hmem : p ∈ scanList n := List.mem_of_find?_eq_some hp0
  have hbnd := mem_scanList.1 hmem
  refine ⟨hpred, hbnd, hp0, ?_⟩
  intro a b h1 h2 h3 h4 h5
  have hfirst := find?_sorted_first (fun q => cell (generate_maze rho n) q.1 q.2 == 0)
    (fun e f : ℕ × ℕ => f.1 < e.1 ∨ (f.1 = e.1 ∧ f.2 < e.2))
    (by intro e f hef hfe; omega)
    (scanList n) (scanList_pairwise n) p hp0 (a, b)
    (mem_scanList.2 ⟨h1, h2, h3, h4⟩) (by simpa using h5)
  have hne0 : cell (generate_maze rho n) a b ≠ 0 := by
    simpa using hfirst
  rcases hgood.hbin a b with h | h
  · exact absurd h hne0
  · exact h

/-- C8 witness: the goal-selection theorem applied at size `5` with the
all-zeros stream. -/
theorem c8_witness :
    cell (generate_maze rhoZero 5) (find_valid_portal_position 5 (generate_maze rhoZero 5)).1
      (find_valid_portal_position 5 (generate_maze rhoZero 5)).2 = 0 ∧
    (1 ≤ (find_valid_portal_position 5 (generate_maze rhoZero 5)).1 ∧
      (find_valid_portal_position 5 (generate_maze rhoZero 5)).1 < 5 ∧
      1 ≤ (find_valid_portal_position 5 (generate_maze rhoZero 5)).2 ∧
      (find_valid_portal_position 5 (generate_maze rhoZero 5)).2 < 5) ∧
    (scanList 5).find?
        (fun q => cell (generate_maze rhoZero 5) q.1 q.2 == 0) =
      some (find_valid_portal_position 5 (generate_maze rhoZero 5)) ∧
    (∀ a b, 1 ≤ a → a < 5 → 1 ≤ b → b < 5 →
      ((find_valid_portal_position 5 (generate_maze rhoZero 5)).1 < a ∨
        ((find_valid_portal_position 5 (generate_maze rhoZero 5)).1 = a ∧
          (find_valid_portal_position 5 (generate_maze rhoZero 5)).2 < b)) →
      cell (generate_maze rhoZero 5) a b = 1) :=
  c8_goal_selection rhoZero 5 (by decide) _ _ rfl rfl

/-!
## Collision geometry (C1, C4)
-/

/-- Cell `(i, j)` — the unit square `[i, i+1] × [j, j+1]` — overlaps the open
collision square of half-width `R` centered at `(x, z)` with positive area. -/
def overlapsCell (R x z : ℚ) (i j : ℤ) : Prop :=
  (i : ℚ) < x + R ∧ x - R < (i : ℚ) + 1 ∧ (j : ℚ) < z + R ∧ z - R < (j : ℚ) + 1

/-- The wall-free-disc predicate on a pose: every cell overlapped by the
collision square is an in-bounds PATH cell. -/
def squareFree (g : Grid) (R x z : ℚ) : Prop :=
  ∀ i j : ℤ, overlapsCell R x z i j →
    0 ≤ i ∧ i < (g.length : ℤ) ∧ 0 ≤ j ∧ j < (g.length : ℤ) ∧ cell g i.toNat j.toNat = 0

/-- The five cells the specification names: the cell containing the center and
the cells containing the four corners `(x ± R, z ± R)`. -/
def discCells (R x z : ℚ) : List (ℤ × ℤ) :=
  [(⌊x⌋, ⌊z⌋), (⌊x - R⌋, ⌊z - R⌋), (⌊x - R⌋, ⌊z + R⌋), (⌊x + R⌋, ⌊z - R⌋), (⌊x + R⌋, ⌊z + R⌋)]

/-- The cell at integer coordinates `q` is inside the grid and PATH. -/
def inBoundsPath (g : Grid) (q : ℤ × ℤ) : Prop :=
  0 ≤ q.1 ∧ q.1 < (g.length : ℤ) ∧ 0 ≤ q.2 ∧ q.2 < (g.length : ℤ) ∧
    cell g q.1.toNat q.2.toNat = 0

theorem pyInt_nonneg {q : ℚ} (h : 0 ≤ q) : pyInt q = ⌊q⌋ := by
  unfold pyInt
  rw [if_neg (not_lt.2 h)]

theorem cornersOk_cons_some {g : Grid} {cx cz : ℚ} {rest : List (ℚ × ℚ)} {v : ℕ}
    (hnp : npGet g (pyInt cx) (pyInt cz) = some v) :
    cornersOk g ((cx, cz) :: rest) = if v = 1 then some false else cornersOk g rest := by
  conv_lhs => unfold cornersOk
  rw [hnp]

theorem cornersOk_cons_none {g : Grid} {cx cz : ℚ} {rest : List (ℚ × ℚ)}
    (hnp : npGet g (pyInt cx) (pyInt cz) = none) :
    cornersOk g ((cx, cz) :: rest) = none := by
  conv_lhs => unfold cornersOk
  rw [hnp]

theorem cornersOk_facts {g : Grid} {pts : List (ℚ × ℚ)} (h : cornersOk g pts = some true) :
    ∀ q ∈ pts, ∃ v, npGet g (pyInt q.1) (pyInt q.2) = some v ∧ v ≠ 1 := by
  induction pts with
  | nil =>
    intro q hq
    simp at hq
  | cons hd tl ih =>
    intro q hq
    obtain ⟨cx, cz⟩ := hd
    cases hnp : npGet g (pyInt cx) (pyInt cz) with
    | none =>
      rw [cornersOk_cons_none hnp] at h
      simp at h
    | some v =>
      rw [cornersOk_cons_some hnp] at h
      by_cases hv : v = 1
      · rw [if_pos hv] at h
        simp at h
      · rw [if_neg hv] at h
        rcases List.mem_cons.1 hq with rfl | hq2
        · exact ⟨v, hnp, hv⟩
        · exact ih h q hq2

theorem cornersOk_total {g : Grid} {pts : List (ℚ × ℚ)}
    (hall : ∀ q ∈ pts, ∃ v, npGet g (pyInt q.1) (pyInt q.2) = some v) :
    ∃ b, cornersOk g pts = some b := by
  induction pts with
  | nil => exact ⟨true, rfl⟩
  | cons hd tl ih =>
    obtain ⟨cx, cz⟩ := hd
    obtain ⟨v, hv⟩ := hall (cx, cz) (List.mem_cons_self _ _)
    rw [cornersOk_cons_some hv]
    by_cases h1 : v = 1
    · rw [if_pos h1]
      exact ⟨false, rfl⟩
    · rw [if_neg h1]
      exact ih (fun q hq => hall q (List.mem_cons_of_mem _ hq))

theorem npGet_in_range {n : ℕ} {g : Grid} (hwf : wf n g) (hn : 0 < n) {i j : ℤ}
    (hi0 : 0 ≤ i) (hin : i < (n : ℤ)) (hj0 : 0 ≤ j) (hjn : j < (n : ℤ)) :
    npGet g i j = some (cell g i.toNat j.toNat) := by
  simp only [npGet]
  rw [hwf.1]
  rw [if_pos ⟨by omega, hin⟩]
  have hemod : i.emod (n : ℤ) = i := Int.emod_eq_of_lt hi0 hin
  rw [hemod]
  have hrow : (g.getD i.toNat []).length = n := row_length hwf (by omega)
  rw [hrow]
  rw [if_pos ⟨by omega, hjn⟩]
  have hemod2 : j.emod (n : ℤ) = j := Int.emod_eq_of_lt hj0 hjn
  rw [hemod2]
  rfl

theorem pyInt_interior {q : ℚ} {k : ℕ} (h0 : 0 ≤ pyInt q) (h1 : 1 ≤ (pyInt q).toNat)
    (h2 : (pyInt q).toNat < k) :
    1 ≤ q ∧ q < (k : ℚ) ∧ pyInt q = ⌊q⌋ := by
  unfold pyInt at *
  by_cases hq : q < 0
  · exfalso
    rw [if_pos hq] at h0 h1
    have hc : ⌈q⌉ ≤ (0 : ℤ) := Int.ceil_le.2 (by push_cast; exact hq.le)
    omega
  · rw [if_neg hq] at h0 h1 h2 ⊢
    push_neg at hq
    have hfl : 1 ≤ ⌊q⌋ := by omega
    have hfu : ⌊q⌋ + 1 ≤ (k : ℤ) := by omega
    refine ⟨?_, ?_, rfl⟩
    · exact_mod_cast Int.le_floor.1 hfl
    · have hlt := Int.lt_floor_add_one q
      have hcast : ((⌊q⌋ : ℚ) + 1) ≤ ((k : ℤ) : ℚ) := by exact_mod_cast hfu
      push_cast at hcast ⊢
      linarith

theorem overlap_cell_cases {x R : ℚ} {i : ℤ} (hR : R < 1/2)
    (h1 : (i : ℚ) < x + R) (h2 : x - R < (i : ℚ) + 1) :
    i = ⌊x - R⌋ ∨ i = ⌊x + R⌋ := by
  have hu : i ≤ ⌊x + R⌋ := by
    by_contra hcon
    push_neg at hcon
    have hlt := Int.lt_floor_add_one (x + R)
    have hcast : ((⌊x + R⌋ : ℚ) + 1) ≤ (i : ℚ) := by exact_mod_cast hcon
    linarith
  have hl : ⌊x - R⌋ ≤ i := by
    have hfl : (⌊x - R⌋ : ℚ) ≤ x - R := Int.floor_le _
    have hlt : (⌊x - R⌋ : ℚ) < (i : ℚ) + 1 := by linarith
    have : ⌊x - R⌋ < i + 1 := by exact_mod_cast hlt
    omega
  have hd : ⌊x + R⌋ ≤ ⌊x - R⌋ + 1 := by
    have hle : x + R ≤ (x - R) + 1 := by linarith
    calc ⌊x + R⌋ ≤ ⌊x - R + 1⌋ := Int.floor_le_floor hle
      _ = ⌊x - R⌋ + 1 := Int.floor_add_one _
  omega

theorem corner_floor_bounds {x R : ℚ} {n : ℕ} (h1 : 1 ≤ x) (h2 : x < (n : ℚ) - 1)
    (hR0 : 0 < R) (hR : R < 1/2) :
    0 ≤ ⌊x - R⌋ ∧ ⌊x + R⌋ < (n : ℤ) ∧ pyInt (x - R) = ⌊x - R⌋ ∧ pyInt (x + R) = ⌊x + R⌋ ∧
      0 ≤ ⌊x⌋ ∧ ⌊x⌋ < (n : ℤ) ∧ pyInt x = ⌊x⌋ ∧
      ⌊x - R⌋ ≤ ⌊x⌋ ∧ ⌊x⌋ ≤ ⌊x + R⌋ := by
  have hxm : (0 : ℚ) ≤ x - R := by linarith
  have hxp : x + R < (n : ℚ) := by linarith
  refine ⟨Int.floor_nonneg.2 hxm, Int.floor_lt.2 (by exact_mod_cast hxp), pyInt_nonneg hxm,
    pyInt_nonneg (by linarith), Int.floor_nonneg.2 (by linarith), ?_, pyInt_nonneg (by linarith),
    Int.floor_le_floor (by linarith), Int.floor_le_floor (by linarith)⟩
  exact Int.floor_lt.2 (by exact_mod_cast (by linarith : x < (n : ℚ)))

theorem center_facts {n : ℕ} {g : Grid} (hwf : wf n g)
    (hint : ∀ i j, cell g i j = 0 → 1 ≤ i ∧ i < n - 1 ∧ 1 ≤ j ∧ j < n - 1)
    {R x z : ℚ} (hR0 : 0 < R) (hR : R < 1/2)
    (hx0 : 0 ≤ pyInt x) (hz0 : 0 ≤ pyInt z)
    (hcell : cell g (pyInt x).toNat (pyInt z).toNat = 0) :
    3 ≤ n ∧ pyInt x = ⌊x⌋ ∧ pyInt z = ⌊z⌋ ∧
    (0 ≤ ⌊x - R⌋ ∧ ⌊x + R⌋ < (n : ℤ) ∧ pyInt (x - R) = ⌊x - R⌋ ∧ pyInt (x + R) = ⌊x + R⌋ ∧
      0 ≤ ⌊x⌋ ∧ ⌊x⌋ < (n : ℤ) ∧ ⌊x - R⌋ ≤ ⌊x⌋ ∧ ⌊x⌋ ≤ ⌊x + R⌋) ∧
    (0 ≤ ⌊z - R⌋ ∧ ⌊z + R⌋ < (n : ℤ) ∧ pyInt (z - R) = ⌊z - R⌋ ∧ pyInt (z + R) = ⌊z + R⌋ ∧
      0 ≤ ⌊z⌋ ∧ ⌊z⌋ < (n : ℤ) ∧ ⌊z - R⌋ ≤ ⌊z⌋ ∧ ⌊z⌋ ≤ ⌊z + R⌋) := by
  obtain ⟨ha1, ha2, hb1, hb2⟩ := hint _ _ hcell
  have hn3 : 3 ≤ n := by omega
  obtain ⟨hx1, hx2, hxfl⟩ := pyInt_interior hx0 ha1 ha2
  obtain ⟨hz1, hz2, hzfl⟩ := pyInt_interior hz0 hb1 hb2
  have hcast : ((n - 1 : ℕ) : ℚ) = (n : ℚ) - 1 := by
    push_cast [Nat.cast_sub (by omega : 1 ≤ n)]
    ring
  have hx2q : x < (n : ℚ) - 1 := hcast ▸ hx2
  have hz2q : z < (n : ℚ) - 1 := hcast ▸ hz2
  obtain ⟨u1, u2, u3, u4, u5, u6, u7, u8, u9⟩ := corner_floor_bounds hx1 hx2q hR0 hR
  obtain ⟨w1, w2, w3, w4, w5, w6, w7, w8, w9⟩ := corner_floor_bounds hz1 hz2q hR0 hR
  exact ⟨hn3, hxfl, hzfl, ⟨u1, u2, u3, u4, u5, u6, u8, u9⟩, ⟨w1, w2, w3, w4, w5, w6, w8, w9⟩⟩

set_option maxHeartbeats 1000000 in
theorem can_move_true_master {n : ℕ} {g : Grid} (hwf : wf n g)
    (hbin : ∀ i j, cell g i j = 0 ∨ cell g i j = 1)
    (hint : ∀ i j, cell g i j = 0 → 1 ≤ i ∧ i < n - 1 ∧ 1 ≤ j ∧ j < n - 1)
    {R x z : ℚ} (hR0 : 0 < R) (hR : R < 1/2)
    (h : can_move g R x z = some true) :
    squareFree g R x z ∧ ∀ q ∈ discCells R x z, inBoundsPath g q := by
  unfold can_move at h
  by_cases hcond : 0 ≤ pyInt x ∧ pyInt x < (g.length : ℤ) ∧ 0 ≤ pyInt z ∧
      pyInt z < ((g.getD 0 []).length : ℤ) ∧ cell g (pyInt x).toNat (pyInt z).toNat = 0
  case neg =>
    rw [if_neg hcond] at h
    simp at h
  rw [if_pos hcond] at h
  obtain ⟨hx0, hxn, hz0, hzn, hcell⟩ := hcond
  obtain ⟨hn3, hxfl, hzfl, ⟨u1, u2, u3, u4, u5, u6, u8, u9⟩, ⟨w1, w2, w3, w4, w5, w6, w8, w9⟩⟩ :=
    center_facts hwf hint hR0 hR hx0 hz0 hcell
  have hglen := hwf.1
  have hcf := cornersOk_facts h
  have corner : ∀ (a b : ℚ), (a, b) ∈ cornerList R x z → 0 ≤ pyInt a → pyInt a < (n : ℤ) →
      0 ≤ pyInt b → pyInt b < (n : ℤ) → cell g (pyInt a).toNat (pyInt b).toNat = 0 := by
    intro a b hmem hp1 hp2 hp3 hp4
    obtain ⟨v, hv, hv1⟩ := hcf (a, b) hmem
    have hveq : cell g (pyInt a).toNat (pyInt b).toNat = v := by
      rw [npGet_in_range hwf (by omega) hp1 hp2 hp3 hp4] at hv
      injection hv
    rcases hbin (pyInt a).toNat (pyInt b).toNat with h9 | h9
    · exact h9
    · exact absurd (hveq.symm.trans h9) hv1
  have hcmm : cell g ⌊x - R⌋.toNat ⌊z - R⌋.toNat = 0 := by
    have h9 := corner (x - R) (z - R) (by simp [cornerList]) (by rw [u3]; exact u1)
      (by rw [u3]; omega) (by rw [w3]; exact w1) (by rw [w3]; omega)
    rwa [u3, w3] at h9
  have hcmp : cell g ⌊x - R⌋.toNat ⌊z + R⌋.toNat = 0 := by
    have h9 := corner (x - R) (z + R) (by simp [cornerList]) (by rw [u3]; exact u1)
      (by rw [u3]; omega) (by rw [w4]; omega) (by rw [w4]; exact w2)
    rwa [u3, w4] at h9
  have hcpm : cell g ⌊x + R⌋.toNat ⌊z - R⌋.toNat = 0 := by
    have h9 := corner (x + R) (z - R) (by simp [cornerList]) (by rw [u4]; omega)
      (by rw [u4]; exact u2) (by rw [w3]; exact w1) (by rw [w3]; omega)
    rwa [u4, w3] at h9
  have hcpp : cell g ⌊x + R⌋.toNat ⌊z + R⌋.toNat = 0 := by
    have h9 := corner (x + R) (z + R) (by simp [cornerList]) (by rw [u4]; omega)
      (by rw [u4]; exact u2) (by rw [w4]; omega) (by rw [w4]; exact w2)
    rwa [u4, w4] at h9
  have hcen : cell g ⌊x⌋.toNat ⌊z⌋.toNat = 0 := by
    rw [← hxfl, ← hzfl]
    exact hcell
  constructor
  · intro i j hov
    obtain ⟨ho1, ho2, ho3, ho4⟩ := hov
    rcases overlap_cell_cases hR ho1 ho2 with rfl | rfl <;>
      rcases overlap_cell_cases hR ho3 ho4 with rfl | rfl
    · exact ⟨u1, by rw [hglen]; omega, w1, by rw [hglen]; omega, hcmm⟩
    · exact ⟨u1, by rw [hglen]; omega, by omega, by rw [hglen]; exact w2, hcmp⟩
    · exact ⟨by omega, by rw [hglen]; exact u2, w1, by rw [hglen]; omega, hcpm⟩
    · exact ⟨by omega, by rw [hglen]; exact u2, by omega, by rw [hglen]; exact w2, hcpp⟩
  · intro q hq
    simp only [discCells, List.mem_cons, List.not_mem_nil, or_false] at hq
    rcases hq with rfl | rfl | rfl | rfl | rfl
    · exact ⟨u5, by rw [hglen]; exact u6, w5, by rw [hglen]; exact w6, hcen⟩
    · exact ⟨u1, by rw [hglen]; omega, w1, by rw [hglen]; omega, hcmm⟩
    · exact ⟨u1, by rw [hglen]; omega, by omega, by rw [hglen]; exact w2, hcmp⟩
    · exact ⟨by omega, by rw [hglen]; exact u2, w1, by rw [hglen]; omega, hcpm⟩
    · exact ⟨by omega, by rw [hglen]; exact u2, by omega, by rw [hglen]; exact w2, hcpp⟩

theorem can_move_total {n : ℕ} {g : Grid} (hwf : wf n g)
    (hint : ∀ i j, cell g i j = 0 → 1 ≤ i ∧ i < n - 1 ∧ 1 ≤ j ∧ j < n - 1)
    {R x z : ℚ} (hR0 : 0 < R) (hR : R < 1/2) :
    ∃ b, can_move g R x z = some b := by
  unfold can_move
  by_cases hcond : 0 ≤ pyInt x ∧ pyInt x < (g.length : ℤ) ∧ 0 ≤ pyInt z ∧
      pyInt z < ((g.getD 0 []).length : ℤ) ∧ cell g (pyInt x).toNat (pyInt z).toNat = 0
  case neg =>
    rw [if_neg hcond]
    exact ⟨false, rfl⟩
  rw [if_pos hcond]
  obtain ⟨hx0, hxn, hz0, hzn, hcell⟩ := hcond
  obtain ⟨hn3, hxfl, hzfl, ⟨u1, u2, u3, u4, u5, u6, u8, u9⟩, ⟨w1, w2, w3, w4, w5, w6, w8, w9⟩⟩ :=
    center_facts hwf hint hR0 hR hx0 hz0 hcell
  apply cornersOk_total
  intro q hq
  simp only [cornerList, List.mem_cons, List.not_mem_nil, or_false] at hq
  rcases hq with rfl | rfl | rfl | rfl
  · exact ⟨_, npGet_in_range hwf (by omega) (by rw [u3]; exact u1) (by rw [u3]; omega)
      (by rw [w3]; exact w1) (by rw [w3]; omega)⟩
  · exact ⟨_, npGet_in_range hwf (by omega) (by rw [u3]; exact u1) (by rw [u3]; omega)
      (by rw [w4]; omega) (by rw [w4]; exact w2)⟩
  · exact ⟨_, npGet_in_range hwf (by omega) (by rw [u4]; omega) (by rw [u4]; exact u2)
      (by rw [w3]; exact w1) (by rw [w3]; omega)⟩
  · exact ⟨_, npGet_in_range hwf (by omega) (by rw [u4]; omega) (by rw [u4]; exact u2)
      (by rw [w4]; omega) (by rw [w4]; exact w2)⟩

theorem move_preserves_squareFree {n : ℕ} {g : Grid} (hwf : wf n g)
    (hbin : ∀ i j, cell g i j = 0 ∨ cell g i j = 1)
    (hint : ∀ i j, cell g i j = 0 → 1 ≤ i ∧ i < n - 1 ∧ 1 ≤ j ∧ j < n - 1)
    {R : ℚ} (hR0 : 0 < R) (hR : R < 1/2)
    {cam cam2 : Camera} {dx dz : ℚ}
    (hsf : squareFree g R cam.x cam.z)
    (h : move g R cam dx dz = some cam2) :
    squareFree g R cam2.x cam2.z := by
  simp only [move, Option.bind_eq_bind'] at h
  cases h1 : can_move g R (cam.x + dx) cam.z with
  | none =>
    rw [h1] at h
    simp at h
  | some b1 =>
    rw [h1] at h
    simp only [Option.some_bind'] at h
    have hstep1 : ∃ c1 : Camera,
        (if b1 = true then { cam with x := cam.x + dx } else cam) = c1 ∧
          squareFree g R c1.x c1.z := by
      cases b1 with
      | false => exact ⟨cam, by simp, hsf⟩
      | true =>
        exact ⟨{ cam with x := cam.x + dx }, by simp,
          (can_move_true_master hwf hbin hint hR0 hR h1).1⟩
    obtain ⟨c1, hc1eq, hc1sf⟩ := hstep1
    rw [hc1eq] at h
    cases h2 : can_move g R c1.x (cam.z + dz) with
    | none =>
      rw [h2] at h
      simp at h
    | some b2 =>
      rw [h2] at h
      simp only [Option.some_bind', Option.pure_def] at h
      cases b2 with
      | false =>
        simp only [Bool.false_eq_true, if_false] at h
        obtain rfl : c1 = cam2 := by injection h
        exact hc1sf
      | true =>
        simp only [if_true] at h
        obtain rfl : { c1 with z := cam.z + dz } = cam2 := by injection h
        exact (can_move_true_master hwf hbin hint hR0 hR h2).1

theorem moveSeq_preserves_squareFree {n : ℕ} {g : Grid} (hwf : wf n g)
    (hbin : ∀ i j, cell g i j = 0 ∨ cell g i j = 1)
    (hint : ∀ i j, cell g i j = 0 → 1 ≤ i ∧ i < n - 1 ∧ 1 ≤ j ∧ j < n - 1)
    {R : ℚ} (hR0 : 0 < R) (hR : R < 1/2) :
    ∀ (ds : List (ℚ × ℚ)) (cam cam2 : Camera), squareFree g R cam.x cam.z →
      moveSeq g R cam ds = some cam2 → squareFree g R cam2.x cam2.z := by
  intro ds
  induction ds with
  | nil =>
    intro cam cam2 hsf h
    unfold moveSeq at h
    obtain rfl : cam = cam2 := by injection h
    exact hsf
  | cons d ds ih =>
    intro cam cam2 hsf h
    rw [show moveSeq g R cam (d :: ds) =
      (move g R cam d.1 d.2) >>= (fun c1 => moveSeq g R c1 ds) from rfl,
      Option.bind_eq_bind'] at h
    cases hm : move g R cam d.1 d.2 with
    | none =>
      rw [hm] at h
      simp at h
    | some c1 =>
      rw [hm] at h
      simp only [Option.some_bind'] at h
      exact ih c1 cam2 (move_preserves_squareFree hwf hbin hint hR0 hR hsf hm) h

/-!
## C1 — collision containment
-/

/-- C1: on every generated grid (size `n ≥ 3`) and for every collision radius
`0 < R < 1/2`, if the player starts at a pose whose collision square overlaps
only in-bounds PATH cells, then after any finite sequence of `move` calls that
returns normally, the resulting pose still has this property — `move`
preserves the wall-free-disc predicate, so no reachable pose ever overlaps a
WALL cell. -/
theorem c1_collision_containment (rho : ℕ → ℕ) (n : ℕ) (hn : 3 ≤ n) (g : Grid)
    (hg : g = generate_maze rho n) (R : ℚ) (hR0 : 0 < R) (hR : R < 1/2)
    (cam : Camera) (hsf : squareFree g R cam.x cam.z)
    (ds : List (ℚ × ℚ)) (cam2 : Camera) (hrun : moveSeq g R cam ds = some cam2) :
    squareFree g R cam2.x cam2.z := by
  subst hg
  have hgood := good_final rho hn
  have hwfg : wf n (generate_maze rho n) := hgood.hwf
  have hbing : ∀ i j, cell (generate_maze rho n) i j = 0 ∨
      cell (generate_maze rho n) i j = 1 := hgood.hbin
  have hintg : ∀ i j, cell (generate_maze rho n) i j = 0 →
      1 ≤ i ∧ i < n - 1 ∧ 1 ≤ j ∧ j < n - 1 := hgood.hint
  exact moveSeq_preserves_squareFree hwfg hbing hintg hR0 hR ds cam cam2 hsf hrun

/-- C1 witness: on the size-5 grid generated with the all-zeros stream, the
start pose `(1.5, 1.5)` is square-free for radius `0.2`, and after the move
`(+0.1, 0)` the final pose `(1.6, 1.5)` is square-free as well. -/
theorem c1_witness :
    (0 : ℚ) < 1/5 ∧ (1/5 : ℚ) < 1/2 ∧
      squareFree (generate_maze rhoZero 5) (1/5) (8/5) (3/2) := by
  have hgood := good_final rhoZero (n := 5) (by decide)
  have hwfg : wf 5 (generate_maze rhoZero 5) := hgood.hwf
  have hbing : ∀ i j, cell (generate_maze rhoZero 5) i j = 0 ∨
      cell (generate_maze rhoZero 5) i j = 1 := hgood.hbin
  have hintg : ∀ i j, cell (generate_maze rhoZero 5) i j = 0 →
      1 ≤ i ∧ i < 5 - 1 ∧ 1 ≤ j ∧ j < 5 - 1 := hgood.hint
  have hcm : can_move (generate_maze rhoZero 5) (1/5) (3/2) (3/2) = some true := by
    norm_num [can_move, cornersOk, cornerList, pyInt, npGet, cell]
    decide
  have hsf : squareFree (generate_maze rhoZero 5) (1/5) (3/2) (3/2) :=
    (can_move_true_master hwfg hbing hintg (by norm_num) (by norm_num) hcm).1
  have hA : can_move (generate_maze rhoZero 5) (1/5) (3/2 + 1/10) (3/2) = some true := by
    norm_num [can_move, cornersOk, cornerList, pyInt, npGet, cell]
    decide
  have hB : can_move (generate_maze rhoZero 5) (1/5) (8/5) (3/2) = some true := by
    norm_num [can_move, cornersOk, cornerList, pyInt, npGet, cell]
    decide
  have hmv : moveSeq (generate_maze rhoZero 5) (1/5) ⟨3/2, 1/2, 3/2, 0⟩ [(1/10, 0)] =
      some ⟨8/5, 1/2, 3/2, 0⟩ := by
    simp only [moveSeq, move, hA, Option.some_bind, if_true]
    norm_num [hB, moveSeq]
  refine ⟨by norm_num, by norm_num, ?_⟩
  exact c1_collision_containment rhoZero 5 (by decide) _ rfl (1/5) (by norm_num) (by norm_num)
    ⟨3/2, 1/2, 3/2, 0⟩ hsf [(1/10, 0)] ⟨8/5, 1/2, 3/2, 0⟩ hmv

/-!
## C4 — fail-closed disc query
-/

/-- C4: on every generated grid (size `n ≥ 3`) and for every rational query
position, `can_move` with the program's radius `0.2` never raises (it always
returns `some` boolean); it returns `true` only if the cell containing the
center and the cells containing all four corners are in-bounds PATH cells;
and whenever the center cell or any corner cell lies outside the grid it
returns `false` — fail-closed, with no error. -/
theorem c4_fail_closed (rho : ℕ → ℕ) (n : ℕ) (hn : 3 ≤ n) (g : Grid)
    (hg : g = generate_maze rho n) (x z : ℚ) :
    (∃ b, can_move g PLAYER_RADIUS x z = some b) ∧
    (can_move g PLAYER_RADIUS x z = some true →
      ∀ q ∈ discCells PLAYER_RADIUS x z, inBoundsPath g q) ∧
    ((∃ q ∈ discCells PLAYER_RADIUS x z,
        ¬(0 ≤ q.1 ∧ q.1 < (g.length : ℤ) ∧ 0 ≤ q.2 ∧ q.2 < (g.length : ℤ))) →
      can_move g PLAYER_RADIUS x z = some false) := by
  subst hg
  have hgood := good_final rho hn
  have hwfg : wf n (generate_maze rho n) := hgood.hwf
  have hbing : ∀ i j, cell (generate_maze rho n) i j = 0 ∨
      cell (generate_maze rho n) i j = 1 := hgood.hbin
  have hintg : ∀ i j, cell (generate_maze rho n) i j = 0 →
      1 ≤ i ∧ i < n - 1 ∧ 1 ≤ j ∧ j < n - 1 := hgood.hint
  have hR0 : (0 : ℚ) < PLAYER_RADIUS := by norm_num [PLAYER_RADIUS]
  have hR : PLAYER_RADIUS < 1/2 := by norm_num [PLAYER_RADIUS]
  have htot := can_move_total hwfg hintg hR0 hR (x := x) (z := z)
  refine ⟨htot, fun h => (can_move_true_master hwfg hbing hintg hR0 hR h).2, ?_⟩
  rintro ⟨q, hq, hqoob⟩
  obtain ⟨b, hb⟩ := htot
  cases b with
  | false => exact hb
  | true =>
    exfalso
    have hone := (can_move_true_master hwfg hbing hintg hR0 hR hb).2 q hq
    exact hqoob ⟨hone.1, hone.2.1, hone.2.2.1, hone.2.2.2.1⟩

/-- C4 witness: the fail-closed theorem applied on the size-5 grid generated
with the all-zeros stream at the query position `(1.5, 1.5)`. -/
theorem c4_witness :
    (∃ b, can_move (generate_maze rhoZero 5) PLAYER_RADIUS (3/2) (3/2) = some b) ∧
    (can_move (generate_maze rhoZero 5) PLAYER_RADIUS (3/2) (3/2) = some true →
      ∀ q ∈ discCells PLAYER_RADIUS (3/2) (3/2), inBoundsPath (generate_maze rhoZero 5) q) ∧
    ((∃ q ∈ discCells PLAYER_RADIUS (3/2) (3/2),
        ¬(0 ≤ q.1 ∧ q.1 < ((generate_maze rhoZero 5).length : ℤ) ∧ 0 ≤ q.2 ∧
          q.2 < ((generate_maze rhoZero 5).length : ℤ))) →
      can_move (generate_maze rhoZero 5) PLAYER_RADIUS (3/2) (3/2) = some false) :=
  c4_fail_closed rhoZero 5 (by decide) _ rfl (3/2) (3/2)

end MazeGame
